import Mathlib

/-!
Verification development for the orderbook-replayer core: a shallow
embedding of the Halfbook container, the compressor (OrderbookProcessor),
the checkpoint cache (FPCache) and the traverser (OrderbookTraverser),
with theorems settling the specified properties.

Modelling conventions.
Prices and sizes travel through the program as decimal strings that are
parsed with Python Decimal.  A parsed decimal string (without exponent
notation, leading zeros or a leading plus, the forms the exchange emits)
is determined by its integer mantissa and the number of fractional
digits, so it is embedded as the pair Dec below.  Two Dec values are
string-equal exactly when they are structurally equal, and
Decimal-equal exactly when their exact rational values coincide; both
notions are kept distinct throughout, because dictionaries in the
traverser are keyed by the price string while Halfbook and the set
operations in the compressor compare by Decimal value.
Executable comparisons avoid rationals: value order is decided by
cross-multiplied integer comparison, and bridged to the rational value
for order reasoning.
-/

/-- A decimal string such as 100.25, embedded as mantissa 10025 with 2
fractional digits.  Structural equality of Dec models string equality of
the original text. -/
structure Dec where
  m : Int
  e : Nat
deriving DecidableEq, Repr

namespace Dec

/-- The exact rational value of the decimal, used for order reasoning. -/
def val (d : Dec) : ℚ := (d.m : ℚ) / (10 : ℚ) ^ d.e

/-- Value equality by cross multiplication, the executable model of
Python Decimal equality. -/
def veq (a b : Dec) : Prop := a.m * (10 : Int) ^ b.e = b.m * (10 : Int) ^ a.e

/-- Strict value order by cross multiplication, the executable model of
Python Decimal order. -/
def vlt (a b : Dec) : Prop := a.m * (10 : Int) ^ b.e < b.m * (10 : Int) ^ a.e

instance (a b : Dec) : Decidable (veq a b) := inferInstanceAs (Decidable (_ = _))

instance (a b : Dec) : Decidable (vlt a b) := inferInstanceAs (Decidable (_ < _))

/-- The decimal parses to zero.  Models truthiness of Python
Decimal(qty): the value is zero exactly when the mantissa is. -/
def isZero (d : Dec) : Prop := d.m = 0

instance (d : Dec) : Decidable (isZero d) := inferInstanceAs (Decidable (_ = _))

/-- The literal string 0 used as the deletion sentinel in records. -/
def zero : Dec := ⟨0, 0⟩

theorem pow_ten_pos (e : Nat) : (0 : ℚ) < (10 : ℚ) ^ e := by positivity

theorem veq_iff_val (a b : Dec) : veq a b ↔ val a = val b := by
  unfold veq val
  rw [div_eq_div_iff (ne_of_gt (pow_ten_pos a.e)) (ne_of_gt (pow_ten_pos b.e))]
  constructor
  · intro h
    exact_mod_cast congrArg (fun z : Int => (z : ℚ)) h
  · intro h
    exact_mod_cast h

theorem vlt_iff_val (a b : Dec) : vlt a b ↔ val a < val b := by
  unfold vlt val
  rw [div_lt_div_iff₀ (pow_ten_pos a.e) (pow_ten_pos b.e)]
  constructor
  · intro h
    exact_mod_cast h
  · intro h
    exact_mod_cast h

theorem veq_refl (a : Dec) : veq a a := rfl

theorem veq_symm {a b : Dec} (h : veq a b) : veq b a := by
  rw [veq_iff_val] at h ⊢
  exact h.symm

theorem isZero_iff_val (d : Dec) : isZero d ↔ val d = 0 := by
  unfold isZero val
  rw [div_eq_zero_iff]
  constructor
  · intro h; left; exact_mod_cast h
  · rintro (h | h)
    · exact_mod_cast h
    · exact absurd h (ne_of_gt (pow_ten_pos d.e))

end Dec

/-! ## Views and polarity-ordered sorting

A View is one side of a book: an association list of (price, size)
pairs.  The Halfbook of the source keeps such a list sorted by the
polarity-signed price key. -/

abbrev View := List (Dec × Dec)

/-- The polarity-signed sort key of a price as a rational: negated value
for bids (so that ascending key order is descending price order),
plain value for asks.  Used only in proofs; executable code uses the
cross-multiplied comparison sklt. -/
def skq (isBid : Bool) (d : Dec) : ℚ := if isBid then -d.val else d.val

/-- Strict comparison of polarity-signed keys, executable. -/
def sklt (isBid : Bool) (a b : Dec) : Prop :=
  if isBid then b.vlt a else a.vlt b

instance (isBid : Bool) (a b : Dec) : Decidable (sklt isBid a b) := by
  unfold sklt; split <;> infer_instance

theorem sklt_iff_skq (isBid : Bool) (a b : Dec) :
    sklt isBid a b ↔ skq isBid a < skq isBid b := by
  unfold sklt skq
  cases isBid <;> simp [Dec.vlt_iff_val]

theorem veq_iff_skq (isBid : Bool) (a b : Dec) :
    a.veq b ↔ skq isBid a = skq isBid b := by
  unfold skq
  cases isBid <;> simp [Dec.veq_iff_val]

/-- Non-strict key order, the relation Python sorted uses with the
polarity sort key. -/
def skle (isBid : Bool) (x y : Dec × Dec) : Prop := ¬ sklt isBid y.1 x.1

instance (isBid : Bool) (x y : Dec × Dec) : Decidable (skle isBid x y) := by
  unfold skle; infer_instance

instance (isBid : Bool) : IsTotal (Dec × Dec) (skle isBid) := by
  constructor
  intro a b
  by_cases h : sklt isBid b.1 a.1
  · right
    rw [sklt_iff_skq] at h
    intro h2
    rw [sklt_iff_skq] at h2
    linarith
  · left; exact h

instance (isBid : Bool) : IsTrans (Dec × Dec) (skle isBid) := by
  constructor
  intro a b c hab hbc
  unfold skle at *
  rw [sklt_iff_skq] at *
  intro h
  by_cases h2 : sklt isBid b.1 a.1
  · rw [sklt_iff_skq] at h2; exact hab h2
  · rw [sklt_iff_skq] at h2
    exact hbc (by linarith [not_lt.mp h2])

/-- Python sorted with the polarity sort key of Halfbook: a stable sort
by the signed key (entries with value-equal prices keep their relative
order, which is all sorted guarantees on key ties). -/
def sortV (isBid : Bool) (v : View) : View :=
  List.insertionSort (skle isBid) v

/-- Strict polarity ordering with value-distinct prices; the invariant
every reachable halfbook satisfies. -/
def sortedV (isBid : Bool) (v : View) : Prop :=
  v.Pairwise (fun x y => sklt isBid x.1 y.1)

instance (isBid : Bool) (v : View) : Decidable (sortedV isBid v) :=
  inferInstanceAs (Decidable (List.Pairwise _ _))

theorem sortV_perm (isBid : Bool) (v : View) : List.Perm (sortV isBid v) v :=
  List.perm_insertionSort _ v

theorem sortV_sorted (isBid : Bool) (v : View) :
    List.Sorted (skle isBid) (sortV isBid v) :=
  List.sorted_insertionSort _ v

/-- Pairwise value-distinctness of the prices of a view. -/
def vNodup (v : View) : Prop := v.Pairwise (fun x y => ¬ x.1.veq y.1)

instance (v : View) : Decidable (vNodup v) :=
  inferInstanceAs (Decidable (List.Pairwise _ _))

theorem vNodup_symm : Symmetric (fun x y : Dec × Dec => ¬ x.1.veq y.1) := by
  intro a b h h2
  exact h (Dec.veq_symm h2)

/-- Sorting a view with value-distinct prices yields the strict
polarity ordering. -/
theorem sortedV_sortV (isBid : Bool) (v : View) (hd : vNodup v) :
    sortedV isBid (sortV isBid v) := by
  have hs := sortV_sorted isBid v
  have hperm : List.Perm (sortV isBid v) v := sortV_perm isBid v
  have hd2 : vNodup (sortV isBid v) := by
    exact (List.Perm.pairwise_iff (fun h => vNodup_symm h) hperm).mpr hd
  unfold sortedV
  unfold List.Sorted at hs
  unfold vNodup at hd2
  have := List.Pairwise.and hs hd2
  refine this.imp ?_
  rintro a b ⟨h1, h2⟩
  unfold skle at h1
  rw [sklt_iff_skq] at h1 ⊢
  rw [veq_iff_skq isBid] at h2
  rcases lt_trichotomy (skq isBid a.1) (skq isBid b.1) with h | h | h
  · exact h
  · exact absurd h h2
  · exact absurd h h1

/-- sortedV implies value-distinct prices. -/
theorem sortedV_vNodup {isBid : Bool} {v : View} (h : sortedV isBid v) : vNodup v := by
  refine h.imp ?_
  intro a b hab h2
  rw [sklt_iff_skq] at hab
  rw [veq_iff_skq isBid] at h2
  linarith

/-- A sorted view stays sorted after dropping entries from the end
(top-N slicing). -/
theorem sortedV_take {isBid : Bool} {v : View} (h : sortedV isBid v) (n : Nat) :
    sortedV isBid (v.take n) :=
  h.sublist (List.take_sublist n v)

/-! ## Halfbook operations (halfbook.py)

The source locates an entry with bisect.bisect_left on the sorted list
using the polarity-signed key: the leftmost position whose key is not
smaller than the search key.  On the sorted lists on which the source
ever calls it, that position is also the first such position in list
order, which is what findIdx computes below. -/

/-- Python list.insert at a position (bisect.insort writes through this;
positions beyond the end append). -/
def insertAt {α : Type} : Nat → α → List α → List α
  | 0, a, l => a :: l
  | _ + 1, a, [] => [a]
  | n + 1, a, x :: l => x :: insertAt n a l

/-- Python item assignment hb[i] = a. -/
def replaceAt {α : Type} : Nat → α → List α → List α
  | _, _, [] => []
  | 0, a, _ :: l => a :: l
  | n + 1, a, x :: l => x :: replaceAt n a l

/-- Python del hb[i]. -/
def removeAt {α : Type} : Nat → List α → List α
  | _, [] => []
  | 0, _ :: l => l
  | n + 1, x :: l => x :: removeAt n l

/-- Halfbook._get_idx: the bisect_left insertion point of the
polarity-signed key of p. -/
def getIdx (isBid : Bool) (v : View) (p : Dec) : Nat :=
  v.findIdx (fun x => !decide (sklt isBid x.1 p))

/-- Halfbook.get_qty_decimal: the size string stored at a Decimal-equal
price; none models the empty string returned for an absent price. -/
def getQty (isBid : Bool) (v : View) (p : Dec) : Option Dec :=
  match v[getIdx isBid v p]? with
  | some x => if x.1.veq p then some x.2 else none
  | none => none

/-- Halfbook.update: replace the size at a Decimal-equal price when the
quantity is nonzero, delete the entry when it is zero, insert an absent
nonzero level at the bisect position, and leave the book unchanged on a
zero quantity for an absent level (the warning branch). -/
def update (isBid : Bool) (v : View) (p q : Dec) : View :=
  let i := getIdx isBid v p
  match v[i]? with
  | some x =>
    if x.1.veq p then
      if q.isZero then removeAt i v else replaceAt i (p, q) v
    else
      if q.isZero then v else insertAt i (p, q) v
  | none =>
    if q.isZero then v else insertAt i (p, q) v

/-- The warning branch of Halfbook.update is taken: a zero quantity for
a price with no Decimal-equal entry at the bisect position. -/
def updateWarns (isBid : Bool) (v : View) (p q : Dec) : Prop :=
  q.isZero ∧
    match v[getIdx isBid v p]? with
    | some x => ¬ x.1.veq p
    | none => True

instance (isBid : Bool) (v : View) (p q : Dec) :
    Decidable (updateWarns isBid v p q) := by
  unfold updateWarns
  rcases v[getIdx isBid v p]? with _ | x
  · simp only []; infer_instance
  · simp only []; infer_instance

/-- Structural form of update: walk past entries with smaller keys to
the bisect position and act there.  Provably equal to update. -/
def updR (isBid : Bool) : View → Dec → Dec → View
  | [], p, q => if q.isZero then [] else [(p, q)]
  | x :: t, p, q =>
    if sklt isBid x.1 p then x :: updR isBid t p q
    else if x.1.veq p then (if q.isZero then t else (p, q) :: t)
    else if q.isZero then x :: t
    else (p, q) :: x :: t

theorem getIdx_cons (isBid : Bool) (x : Dec × Dec) (t : View) (p : Dec) :
    getIdx isBid (x :: t) p =
      if sklt isBid x.1 p then getIdx isBid t p + 1 else 0 := by
  unfold getIdx
  rw [List.findIdx_cons]
  by_cases h : sklt isBid x.1 p
  · simp [h]
  · simp [h]

theorem update_cons_of_sklt (isBid : Bool) (x : Dec × Dec) (t : View)
    (p q : Dec) (hk : sklt isBid x.1 p) :
    update isBid (x :: t) p q = x :: update isBid t p q := by
  have hidx : getIdx isBid (x :: t) p = getIdx isBid t p + 1 := by
    rw [getIdx_cons, if_pos hk]
  simp only [update, hidx, List.getElem?_cons_succ]
  rcases ht : t[getIdx isBid t p]? with _ | y
  · dsimp only
    split_ifs <;> rfl
  · dsimp only
    split_ifs <;> rfl

theorem update_eq_updR (isBid : Bool) (v : View) (p q : Dec) :
    update isBid v p q = updR isBid v p q := by
  induction v with
  | nil =>
    simp only [update, updR, getIdx, List.findIdx_nil, List.getElem?_nil]
    split_ifs <;> rfl
  | cons x t ih =>
    by_cases hk : sklt isBid x.1 p
    · have h2 : updR isBid (x :: t) p q = x :: updR isBid t p q := by
        conv_lhs => unfold updR
        rw [if_pos hk]
      rw [update_cons_of_sklt isBid x t p q hk, ih, h2]
    · have hidx : getIdx isBid (x :: t) p = 0 := by
        rw [getIdx_cons, if_neg hk]
      simp only [update, hidx, List.getElem?_cons_zero]
      have h2 : updR isBid (x :: t) p q =
          if x.1.veq p then (if q.isZero then t else (p, q) :: t)
          else if q.isZero then x :: t else (p, q) :: x :: t := by
        conv_lhs => unfold updR
        rw [if_neg hk]
      rw [h2]
      split_ifs <;> rfl

/-! ## Lookup characterization and invariants of update -/

theorem Dec.veq_comm (a b : Dec) : a.veq b ↔ b.veq a :=
  ⟨Dec.veq_symm, Dec.veq_symm⟩

theorem Dec.veq_trans {a b c : Dec} (h1 : a.veq b) (h2 : b.veq c) : a.veq c := by
  rw [Dec.veq_iff_val] at *
  exact h1.trans h2

theorem not_veq_of_sklt {isBid : Bool} {a b : Dec} (h : sklt isBid a b) :
    ¬ a.veq b := by
  rw [sklt_iff_skq] at h
  rw [veq_iff_skq isBid]
  linarith

theorem sklt_of_not_sklt_not_veq {isBid : Bool} {a b : Dec}
    (hk : ¬ sklt isBid a b) (hv : ¬ a.veq b) : sklt isBid b a := by
  rw [sklt_iff_skq] at hk ⊢
  rw [veq_iff_skq isBid] at hv
  rcases lt_trichotomy (skq isBid a) (skq isBid b) with h | h | h
  · exact absurd h hk
  · exact absurd h hv
  · exact h

theorem sklt_trans {isBid : Bool} {a b c : Dec}
    (h1 : sklt isBid a b) (h2 : sklt isBid b c) : sklt isBid a c := by
  rw [sklt_iff_skq] at *
  linarith

theorem sklt_of_veq_sklt {isBid : Bool} {a b c : Dec}
    (h1 : a.veq b) (h2 : sklt isBid b c) : sklt isBid a c := by
  rw [sklt_iff_skq] at *
  rw [veq_iff_skq isBid] at h1
  linarith

/-- Value-based association lookup: the size at the first entry whose
price is Decimal-equal to p. -/
def lookupVal (v : View) (p : Dec) : Option Dec :=
  (v.find? (fun x => decide (x.1.veq p))).map (fun x => x.2)

theorem lookupVal_nil (p : Dec) : lookupVal [] p = none := rfl

theorem lookupVal_cons (x : Dec × Dec) (t : View) (p : Dec) :
    lookupVal (x :: t) p = if x.1.veq p then some x.2 else lookupVal t p := by
  unfold lookupVal
  rw [List.find?_cons]
  by_cases h : x.1.veq p
  · simp [h]
  · simp [h]

theorem lookupVal_eq_none {v : View} {p : Dec}
    (h : ∀ y ∈ v, ¬ y.1.veq p) : lookupVal v p = none := by
  induction v with
  | nil => rfl
  | cons x t ih =>
    rw [lookupVal_cons, if_neg (h x (List.mem_cons_self x t))]
    exact ih (fun y hy => h y (List.mem_cons_of_mem x hy))

theorem lookupVal_eq_none_of_sklt {isBid : Bool} {v : View} {p : Dec}
    (h : ∀ y ∈ v, sklt isBid p y.1) : lookupVal v p = none :=
  lookupVal_eq_none (fun y hy h2 => not_veq_of_sklt (h y hy) (Dec.veq_symm h2))

theorem updR_mem {isBid : Bool} {v : View} {p q : Dec} :
    ∀ y ∈ updR isBid v p q, y = (p, q) ∨ y ∈ v := by
  induction v with
  | nil =>
    intro y hy
    unfold updR at hy
    split_ifs at hy with h1
    · cases hy
    · left; exact List.mem_singleton.mp hy
  | cons x t ih =>
    intro y hy
    unfold updR at hy
    split_ifs at hy with h1 h2 h3 h3
    · rcases List.mem_cons.mp hy with h4 | h4
      · right; rw [h4]; exact List.mem_cons_self x t
      · rcases ih y h4 with h5 | h5
        · left; exact h5
        · right; exact List.mem_cons_of_mem x h5
    · right; exact List.mem_cons_of_mem x hy
    · rcases List.mem_cons.mp hy with h4 | h4
      · left; exact h4
      · right; exact List.mem_cons_of_mem x h4
    · right; exact hy
    · rcases List.mem_cons.mp hy with h4 | h4
      · left; exact h4
      · right; exact h4

theorem updR_sortedV {isBid : Bool} {v : View} {p q : Dec}
    (h : sortedV isBid v) : sortedV isBid (updR isBid v p q) := by
  induction v with
  | nil =>
    unfold updR
    split_ifs
    · exact List.Pairwise.nil
    · exact List.pairwise_singleton _ _
  | cons x t ih =>
    obtain ⟨hx, ht⟩ := List.pairwise_cons.mp h
    unfold updR
    split_ifs with h1 h2 h3 h3
    · refine List.Pairwise.cons ?_ (ih ht)
      intro y hy
      rcases updR_mem y hy with h4 | h4
      · rw [h4]; exact h1
      · exact hx y h4
    · exact ht
    · refine List.Pairwise.cons ?_ ht
      intro y hy
      exact sklt_of_veq_sklt (Dec.veq_symm h2) (hx y hy)
    · exact List.Pairwise.cons hx ht
    · have hpx : sklt isBid p x.1 := sklt_of_not_sklt_not_veq h1 h2
      refine List.Pairwise.cons ?_ (List.Pairwise.cons hx ht)
      intro y hy
      rcases List.mem_cons.mp hy with h4 | h4
      · rw [h4]; exact hpx
      · exact sklt_trans hpx (hx y h4)

theorem updR_nil_zero {isBid : Bool} {p q : Dec} (hq : q.isZero) :
    updR isBid [] p q = [] := by
  unfold updR; rw [if_pos hq]

theorem updR_nil_nonzero {isBid : Bool} {p q : Dec} (hq : ¬ q.isZero) :
    updR isBid [] p q = [(p, q)] := by
  unfold updR; rw [if_neg hq]

theorem updR_cons_lt {isBid : Bool} {x : Dec × Dec} {t : View} {p q : Dec}
    (hk : sklt isBid x.1 p) :
    updR isBid (x :: t) p q = x :: updR isBid t p q := by
  conv_lhs => unfold updR
  rw [if_pos hk]

theorem updR_cons_found_zero {isBid : Bool} {x : Dec × Dec} {t : View}
    {p q : Dec} (hk : ¬ sklt isBid x.1 p) (hv : x.1.veq p) (hq : q.isZero) :
    updR isBid (x :: t) p q = t := by
  conv_lhs => unfold updR
  rw [if_neg hk, if_pos hv, if_pos hq]

theorem updR_cons_found_nonzero {isBid : Bool} {x : Dec × Dec} {t : View}
    {p q : Dec} (hk : ¬ sklt isBid x.1 p) (hv : x.1.veq p) (hq : ¬ q.isZero) :
    updR isBid (x :: t) p q = (p, q) :: t := by
  conv_lhs => unfold updR
  rw [if_neg hk, if_pos hv, if_neg hq]

theorem updR_cons_absent_zero {isBid : Bool} {x : Dec × Dec} {t : View}
    {p q : Dec} (hk : ¬ sklt isBid x.1 p) (hv : ¬ x.1.veq p) (hq : q.isZero) :
    updR isBid (x :: t) p q = x :: t := by
  conv_lhs => unfold updR
  rw [if_neg hk, if_neg hv, if_pos hq]

theorem updR_cons_absent_nonzero {isBid : Bool} {x : Dec × Dec} {t : View}
    {p q : Dec} (hk : ¬ sklt isBid x.1 p) (hv : ¬ x.1.veq p) (hq : ¬ q.isZero) :
    updR isBid (x :: t) p q = (p, q) :: x :: t := by
  conv_lhs => unfold updR
  rw [if_neg hk, if_neg hv, if_neg hq]

theorem updR_nonzero {isBid : Bool} {v : View} {p q : Dec}
    (h : ∀ y ∈ v, ¬ y.2.isZero) : ∀ y ∈ updR isBid v p q, ¬ y.2.isZero := by
  induction v with
  | nil =>
    intro y hy
    by_cases hq : q.isZero
    · rw [updR_nil_zero hq] at hy; cases hy
    · rw [updR_nil_nonzero hq] at hy
      rw [List.mem_singleton.mp hy]; exact hq
  | cons x t ih =>
    intro y hy
    by_cases hk : sklt isBid x.1 p
    · rw [updR_cons_lt hk] at hy
      rcases List.mem_cons.mp hy with h4 | h4
      · rw [h4]; exact h x (List.mem_cons_self x t)
      · exact ih (fun z hz => h z (List.mem_cons_of_mem x hz)) y h4
    · by_cases hv : x.1.veq p
      · by_cases hq : q.isZero
        · rw [updR_cons_found_zero hk hv hq] at hy
          exact h y (List.mem_cons_of_mem x hy)
        · rw [updR_cons_found_nonzero hk hv hq] at hy
          rcases List.mem_cons.mp hy with h4 | h4
          · rw [h4]; exact hq
          · exact h y (List.mem_cons_of_mem x h4)
      · by_cases hq : q.isZero
        · rw [updR_cons_absent_zero hk hv hq] at hy; exact h y hy
        · rw [updR_cons_absent_nonzero hk hv hq] at hy
          rcases List.mem_cons.mp hy with h4 | h4
          · rw [h4]; exact hq
          · exact h y h4

theorem lookupVal_updR {isBid : Bool} {v : View} {p q : Dec}
    (h : sortedV isBid v) (r : Dec) :
    lookupVal (updR isBid v p q) r =
      if r.veq p then (if q.isZero then none else some q)
      else lookupVal v r := by
  induction v with
  | nil =>
    by_cases hq : q.isZero
    · rw [updR_nil_zero hq, if_pos hq, lookupVal_nil]
      split_ifs <;> rfl
    · rw [updR_nil_nonzero hq, if_neg hq, lookupVal_cons, lookupVal_nil]
      by_cases hr : r.veq p
      · rw [if_pos (Dec.veq_symm hr), if_pos hr]
      · rw [if_neg (fun hc => hr (Dec.veq_symm hc)), if_neg hr]
  | cons x t ih =>
    obtain ⟨hx, ht⟩ := List.pairwise_cons.mp h
    by_cases hk : sklt isBid x.1 p
    · rw [updR_cons_lt hk, lookupVal_cons]
      by_cases hv : x.1.veq r
      · have hnp : ¬ r.veq p := by
          intro hc
          exact not_veq_of_sklt hk (Dec.veq_trans hv hc)
        rw [if_pos hv, if_neg hnp, lookupVal_cons, if_pos hv]
      · rw [if_neg hv, ih ht, lookupVal_cons, if_neg hv]
    · by_cases hv : x.1.veq p
      · by_cases hq : q.isZero
        · rw [updR_cons_found_zero hk hv hq, if_pos hq]
          by_cases hr : r.veq p
          · rw [if_pos hr]
            refine lookupVal_eq_none (fun y hy hc => ?_)
            exact not_veq_of_sklt (hx y hy)
              (Dec.veq_trans hv
                (Dec.veq_trans (Dec.veq_symm hr) (Dec.veq_symm hc)))
          · rw [if_neg hr, lookupVal_cons]
            have hc : ¬ x.1.veq r := by
              intro hc
              exact hr (Dec.veq_symm (Dec.veq_trans (Dec.veq_symm hv) hc))
            rw [if_neg hc]
        · rw [updR_cons_found_nonzero hk hv hq, if_neg hq, lookupVal_cons]
          by_cases hr : r.veq p
          · rw [if_pos (Dec.veq_symm hr), if_pos hr]
          · rw [if_neg (fun hc => hr (Dec.veq_symm hc)), if_neg hr,
              lookupVal_cons]
            have hc2 : ¬ x.1.veq r := by
              intro hc2
              exact hr (Dec.veq_symm (Dec.veq_trans (Dec.veq_symm hv) hc2))
            rw [if_neg hc2]
      · by_cases hq : q.isZero
        · rw [updR_cons_absent_zero hk hv hq, if_pos hq]
          by_cases hr : r.veq p
          · rw [if_pos hr]
            have hpx : sklt isBid p x.1 := sklt_of_not_sklt_not_veq hk hv
            refine @lookupVal_eq_none_of_sklt isBid _ _ (fun y hy => ?_)
            have h5 : sklt isBid p y.1 := by
              rcases List.mem_cons.mp hy with h4 | h4
              · rw [h4]; exact hpx
              · exact sklt_trans hpx (hx y h4)
            exact sklt_of_veq_sklt hr h5
          · rw [if_neg hr]
        · rw [updR_cons_absent_nonzero hk hv hq, if_neg hq, lookupVal_cons]
          by_cases hr : r.veq p
          · rw [if_pos (Dec.veq_symm hr), if_pos hr]
          · rw [if_neg (fun hc => hr (Dec.veq_symm hc)), if_neg hr]

/-- On a sorted book, the bisect-based get_qty_decimal agrees with
value-based association lookup. -/
theorem getQty_eq_lookupVal {isBid : Bool} {v : View} {p : Dec}
    (h : sortedV isBid v) : getQty isBid v p = lookupVal v p := by
  induction v with
  | nil => rfl
  | cons x t ih =>
    obtain ⟨hx, ht⟩ := List.pairwise_cons.mp h
    by_cases hk : sklt isBid x.1 p
    · have hidx : getIdx isBid (x :: t) p = getIdx isBid t p + 1 := by
        rw [getIdx_cons, if_pos hk]
      unfold getQty
      rw [hidx, List.getElem?_cons_succ, lookupVal_cons,
        if_neg (not_veq_of_sklt hk)]
      exact ih ht
    · have hidx : getIdx isBid (x :: t) p = 0 := by
        rw [getIdx_cons, if_neg hk]
      unfold getQty
      rw [hidx, List.getElem?_cons_zero, lookupVal_cons]
      dsimp only
      by_cases hv : x.1.veq p
      · rw [if_pos hv, if_pos hv]
      · rw [if_neg hv, if_neg hv]
        have hpx : sklt isBid p x.1 := sklt_of_not_sklt_not_veq hk hv
        exact (@lookupVal_eq_none_of_sklt isBid _ _
          (fun y hy => sklt_trans hpx (hx y hy))).symm

/-- Halfbook.set: replace the contents from an unsorted batch, sorting
once by the polarity key. -/
def hbSet (isBid : Bool) (batch : View) : View := sortV isBid batch

theorem hbSet_mem {isBid : Bool} {batch : View} {y : Dec × Dec} :
    y ∈ hbSet isBid batch ↔ y ∈ batch :=
  (sortV_perm isBid batch).mem_iff

/-- If the price is absent and the quantity is zero, update leaves the
book untouched. -/
theorem updR_absent_zero {isBid : Bool} {v : View} {p q : Dec}
    (hq : q.isZero) (habs : ∀ y ∈ v, ¬ y.1.veq p) :
    updR isBid v p q = v := by
  induction v with
  | nil => exact updR_nil_zero hq
  | cons x t ih =>
    by_cases hk : sklt isBid x.1 p
    · rw [updR_cons_lt hk,
        ih (fun y hy => habs y (List.mem_cons_of_mem x hy))]
    · rw [updR_cons_absent_zero hk (habs x (List.mem_cons_self x t)) hq]

theorem lookupVal_none_iff {v : View} {p : Dec} :
    lookupVal v p = none ↔ ∀ y ∈ v, ¬ y.1.veq p := by
  unfold lookupVal
  rw [Option.map_eq_none', List.find?_eq_none]
  simp

/-! ## C5 and C6: Halfbook functional correctness and invariants -/

/-- The concrete bid book of spec scenario 1, built with set. -/
def exBook1 : View :=
  hbSet true [(⟨100, 0⟩, ⟨10, 0⟩), (⟨99, 0⟩, ⟨5, 0⟩), (⟨101, 0⟩, ⟨15, 0⟩)]

def exBook2 : View := update true exBook1 ⟨100, 0⟩ ⟨20, 0⟩

def exBook3 : View := update true exBook2 ⟨100, 0⟩ ⟨0, 0⟩

/-- C5: Halfbook.update semantics.  On a sorted book: a present price
with nonzero size has its entry replaced; a present price with zero
size is removed; an absent price with nonzero size is inserted at the
polarity-correct sorted position; an absent price with zero size
signals a warning and leaves the book completely unchanged.  The spec
example sequence on a bid book behaves as stated. -/
theorem C5_halfbook_update (isBid : Bool) (hb : View) (p q : Dec)
    (hs : sortedV isBid hb) :
    (((lookupVal hb p).isSome ∧ ¬ q.isZero) →
        ∀ r, lookupVal (update isBid hb p q) r =
          if r.veq p then some q else lookupVal hb r) ∧
    (((lookupVal hb p).isSome ∧ q.isZero) →
        ∀ r, lookupVal (update isBid hb p q) r =
          if r.veq p then none else lookupVal hb r) ∧
    ((lookupVal hb p = none ∧ ¬ q.isZero) →
        (sortedV isBid (update isBid hb p q) ∧
          ∀ r, lookupVal (update isBid hb p q) r =
            if r.veq p then some q else lookupVal hb r)) ∧
    ((lookupVal hb p = none ∧ q.isZero) →
        (update isBid hb p q = hb ∧ updateWarns isBid hb p q)) ∧
    (exBook1 = [(⟨101, 0⟩, ⟨15, 0⟩), (⟨100, 0⟩, ⟨10, 0⟩), (⟨99, 0⟩, ⟨5, 0⟩)] ∧
      exBook2 = [(⟨101, 0⟩, ⟨15, 0⟩), (⟨100, 0⟩, ⟨20, 0⟩), (⟨99, 0⟩, ⟨5, 0⟩)] ∧
      exBook3 = [(⟨101, 0⟩, ⟨15, 0⟩), (⟨99, 0⟩, ⟨5, 0⟩)]) := by
  refine ⟨?_, ?_, ?_, ?_, by decide⟩
  · rintro ⟨-, hq⟩ r
    rw [update_eq_updR, lookupVal_updR hs r, if_neg hq]
  · rintro ⟨-, hq⟩ r
    rw [update_eq_updR, lookupVal_updR hs r, if_pos hq]
  · rintro ⟨-, hq⟩
    refine ⟨?_, ?_⟩
    · rw [update_eq_updR]; exact updR_sortedV hs
    · intro r
      rw [update_eq_updR, lookupVal_updR hs r, if_neg hq]
  · rintro ⟨habs, hq⟩
    have habs2 : ∀ y ∈ hb, ¬ y.1.veq p := lookupVal_none_iff.mp habs
    refine ⟨?_, ?_, ?_⟩
    · rw [update_eq_updR]
      exact updR_absent_zero hq habs2
    · exact hq
    · rcases hidx : hb[getIdx isBid hb p]? with _ | x
      · simp
      · simp only []
        have hmem : x ∈ hb := by
          have := List.getElem?_eq_some_iff.mp hidx
          obtain ⟨hlt, hget⟩ := this
          rw [← hget]
          exact List.getElem_mem hlt
        exact habs2 x hmem

/-- Witness for C5 at the concrete example book. -/
theorem C5_halfbook_update_witness :
    sortedV true exBook1 ∧
      lookupVal (update true exBook1 ⟨100, 0⟩ ⟨20, 0⟩) ⟨100, 0⟩ =
        some ⟨20, 0⟩ := by
  refine ⟨by decide, ?_⟩
  have h := C5_halfbook_update true exBook1 ⟨100, 0⟩ ⟨20, 0⟩ (by decide)
  have h2 := h.1 ⟨by decide, by decide⟩ ⟨100, 0⟩
  rw [h2, if_pos (Dec.veq_refl _)]

/-- One step of the Halfbook lifecycle: a set batch or an update call. -/
inductive HbOp
  | setOp (batch : View)
  | updOp (p q : Dec)

/-- Execute a finite interleaving of set and update calls, starting
from the given book (a Halfbook is constructed empty). -/
def hbExec (isBid : Bool) : View → List HbOp → View
  | v, [] => v
  | _, HbOp.setOp batch :: ops => hbExec isBid (hbSet isBid batch) ops
  | v, HbOp.updOp p q :: ops => hbExec isBid (update isBid v p q) ops

/-- Hypothesis on a lifecycle step: set batches carry value-distinct
prices and sizes that do not parse to zero; updates are unrestricted. -/
def goodOp : HbOp → Prop
  | HbOp.setOp batch => vNodup batch ∧ ∀ y ∈ batch, ¬ y.2.isZero
  | HbOp.updOp _ _ => True

instance : (op : HbOp) → Decidable (goodOp op)
  | HbOp.setOp _ => inferInstanceAs (Decidable (_ ∧ _))
  | HbOp.updOp _ _ => inferInstanceAs (Decidable True)

theorem hbExec_good {isBid : Bool} {ops : List HbOp} :
    ∀ {v : View}, sortedV isBid v → (∀ y ∈ v, ¬ y.2.isZero) →
      (∀ op ∈ ops, goodOp op) →
      sortedV isBid (hbExec isBid v ops) ∧
        ∀ y ∈ hbExec isBid v ops, ¬ y.2.isZero := by
  induction ops with
  | nil => exact fun hs hz _ => ⟨hs, hz⟩
  | cons op ops ih =>
    intro v hs hz hops
    rcases op with batch | ⟨p, q⟩
    · obtain ⟨hbn, hbz⟩ := hops _ (List.mem_cons_self _ _)
      refine ih (sortedV_sortV isBid batch hbn)
        (fun y hy => hbz y (hbSet_mem.mp hy))
        (fun o ho => hops o (List.mem_cons_of_mem _ ho))
    · rw [show hbExec isBid v (HbOp.updOp p q :: ops) =
          hbExec isBid (update isBid v p q) ops from rfl]
      rw [update_eq_updR]
      exact ih (updR_sortedV hs) (updR_nonzero hz)
        (fun o ho => hops o (List.mem_cons_of_mem _ ho))

/-- C6 counterexample: a set batch with value-distinct prices but a
zero-parsing size leaves a zero-size entry in the book, so the claimed
invariant fails without a nonzero-size condition on set batches. -/
theorem C6_counterexample :
    vNodup [((⟨100, 0⟩ : Dec), (⟨0, 0⟩ : Dec))] ∧
      ¬ (∀ y ∈ hbExec true [] [HbOp.setOp [(⟨100, 0⟩, ⟨0, 0⟩)]],
          ¬ y.2.isZero) := by
  constructor
  · decide
  · intro h
    exact h (⟨100, 0⟩, ⟨0, 0⟩) (by decide) (by decide)

/-- C6 amended: for every finite interleaving of set and update calls
starting from an empty halfbook, in which every set batch has
value-distinct prices and sizes that do not parse to zero, the
resulting sequence is strictly ordered by the polarity (descending
price for bids, ascending for asks), has no two entries with
Decimal-equal prices, and has no entry whose size parses to zero. -/
theorem C6_halfbook_invariants (isBid : Bool) (ops : List HbOp)
    (hops : ∀ op ∈ ops, goodOp op) :
    sortedV isBid (hbExec isBid [] ops) ∧
      vNodup (hbExec isBid [] ops) ∧
      (isBid = true →
        (hbExec isBid [] ops).Pairwise (fun a b => b.1.vlt a.1)) ∧
      (isBid = false →
        (hbExec isBid [] ops).Pairwise (fun a b => a.1.vlt b.1)) ∧
      ∀ y ∈ hbExec isBid [] ops, ¬ y.2.isZero := by
  obtain ⟨hs, hz⟩ := @hbExec_good isBid ops []
    (List.Pairwise.nil) (by intro y hy; cases hy) hops
  refine ⟨hs, sortedV_vNodup hs, ?_, ?_, hz⟩
  · intro hb
    subst hb
    refine hs.imp ?_
    intro a b hab
    unfold sklt at hab
    simpa using hab
  · intro hb
    subst hb
    refine hs.imp ?_
    intro a b hab
    unfold sklt at hab
    simpa using hab

/-- Witness for the amended C6 at the spec example operations. -/
theorem C6_halfbook_invariants_witness :
    (∀ op ∈ [HbOp.setOp [(⟨100, 0⟩, ⟨10, 0⟩), (⟨99, 0⟩, ⟨5, 0⟩),
        ((⟨101, 0⟩ : Dec), (⟨15, 0⟩ : Dec))],
      HbOp.updOp ⟨100, 0⟩ ⟨20, 0⟩, HbOp.updOp ⟨100, 0⟩ ⟨0, 0⟩], goodOp op) ∧
    sortedV true (hbExec true [] [HbOp.setOp [(⟨100, 0⟩, ⟨10, 0⟩),
      (⟨99, 0⟩, ⟨5, 0⟩), (⟨101, 0⟩, ⟨15, 0⟩)],
      HbOp.updOp ⟨100, 0⟩ ⟨20, 0⟩, HbOp.updOp ⟨100, 0⟩ ⟨0, 0⟩]) := by
  refine ⟨by decide, ?_⟩
  exact (C6_halfbook_invariants true _ (by decide)).1

/-! ## FPCache (orderbook_traverser.py)

The checkpoint cache is a SortedDict from integer timestamps to
values, embedded as a key-sorted association list.  Python stores
object references, so to speak about mutation the value type is left
abstract; for the isolation claim the values are addresses into an
explicit heap of mutable cells. -/

/-- Plain positional list indexing (used where the source indexes the
SortedDict by position). -/
def listGet? {α : Type} : List α → Nat → Option α
  | [], _ => none
  | x :: _, 0 => some x
  | _ :: t, n + 1 => listGet? t n

/-- Insertion into the key-sorted association list (SortedDict item
assignment for a fresh key). -/
def fpInsert {α : Type} (k : Int) (v : α) :
    List (Int × α) → List (Int × α)
  | [] => [(k, v)]
  | x :: t => if k < x.1 then (k, v) :: x :: t else x :: fpInsert k v t

/-- FPCache.add: insert the pair only when the key is absent. -/
def fpAdd {α : Type} (c : List (Int × α)) (k : Int) (v : α) :
    List (Int × α) :=
  if c.any (fun x => decide (x.1 = k)) then c else fpInsert k v c

/-- FPCache.get, translated from the source: idx is bisect_left over
the sorted keys; when idx is inside the cache the value at idx is
returned (the value at the smallest key greater than or equal to the
query), otherwise the last value when the cache is nonempty, and none
for an empty cache. -/
def fpGet {α : Type} (c : List (Int × α)) (k : Int) : Option α :=
  let idx := c.findIdx (fun x => !decide (x.1 < k))
  match listGet? c idx with
  | some x => some x.2
  | none => (c.getLast?).map (fun x => x.2)

/-- The cache of spec scenario 3: add(1, a); add(3, c). -/
def c2cache : List (Int × String) := fpAdd (fpAdd [] 1 "a") 3 "c"

/-- C2: what FPCache.get actually computes on the spec scenario.  The
claim (and the tests test_get and test_get_largest_key_smaller_than of
the repository) require get(0) = not-found and get(2) = a, but for an
absent key with a larger key present the source returns the value at
the smallest larger key: get(0) = a and get(2) = c.  get(1), get(3)
and get(5) agree with the claim. -/
theorem C2_fpcache_get_smallest_larger :
    fpGet c2cache 0 = some "a" ∧
    fpGet c2cache 1 = some "a" ∧
    fpGet c2cache 2 = some "c" ∧
    fpGet c2cache 3 = some "c" ∧
    fpGet c2cache 5 = some "c" := by
  refine ⟨by decide, by decide, by decide, by decide, by decide⟩

/-- Reading a mutable cell of the heap. -/
def heapGet (h : List String) (a : Nat) : String := h.getD a ""

/-- In-place mutation of a mutable cell (the callers writes through the
reference it kept after add). -/
def heapSet (h : List String) (a : Nat) (s : String) : List String :=
  h.set a s

/-- C7: FPCache.add stores the reference, not a deep copy.  With the
value modelled as an address into a heap of mutable cells (Python
reference semantics), mutating the object after add(1, o) changes what
get(1) observes, contradicting the claim and the tests test_copy and
test_nested_object_copy of the repository.  The insert-only-if-absent
half of the claim does hold (second conjunct). -/
theorem C7_fpcache_add_stores_reference :
    ((fpGet (fpAdd ([] : List (Int × Nat)) 1 0) 1).map
        (heapGet (heapSet ["a"] 0 "c")) = some "c" ∧
      ("c" : String) ≠ "a") ∧
    fpAdd (fpAdd ([] : List (Int × Nat)) 1 10) 1 20 =
      fpAdd ([] : List (Int × Nat)) 1 10 := by
  refine ⟨⟨by decide, by decide⟩, by decide⟩

/-! ## The delta calculation (_calculate_deltas, orderbook_processor.py) -/

/-- Membership of a price in a view by Decimal value (the Python sets
new_levels and old_levels contain Decimal objects). -/
def vmem (p : Dec) (v : View) : Bool := v.any (fun x => decide (x.1.veq p))

/-- _calculate_deltas: the minimal change set from the old top view to
the new one.  An entry of the new view is emitted when its price level
is new (it entered the top N) or when the stored size string differs
from the old one (the source also consults removed_price_levels inside
the loop, but a price of the new view is never in that set); every old
price level absent from the new view is emitted with the literal size
0.  The source iterates the removal set in unspecified order; here the
removals follow the old view order. -/
def calculateDeltas (newHalfbook oldHalfbook : View) (isBid : Bool) : View :=
  (newHalfbook.filterMap (fun x =>
    if vmem x.1 oldHalfbook then
      match getQty isBid oldHalfbook x.1 with
      | none => some x
      | some oq => if oq ≠ x.2 then some x else none
    else some x))
  ++ (oldHalfbook.filter (fun x => !vmem x.1 newHalfbook)).map
      (fun x => (x.1, Dec.zero))

theorem vmem_iff {p : Dec} {v : View} :
    vmem p v = true ↔ ∃ y ∈ v, y.1.veq p := by
  unfold vmem
  rw [List.any_eq_true]
  constructor
  · rintro ⟨y, hy, hdec⟩
    exact ⟨y, hy, of_decide_eq_true hdec⟩
  · rintro ⟨y, hy, hv⟩
    exact ⟨y, hy, decide_eq_true hv⟩

/-- On a sorted view, a structurally present pair is what value lookup
returns. -/
theorem lookupVal_eq_some_of_mem {isBid : Bool} {v : View} {p t : Dec}
    (hs : sortedV isBid v) (hm : (p, t) ∈ v) : lookupVal v p = some t := by
  induction v with
  | nil => cases hm
  | cons x tl ih =>
    obtain ⟨hx, htl⟩ := List.pairwise_cons.mp hs
    rcases List.mem_cons.mp hm with h4 | h4
    · rw [← h4, lookupVal_cons, if_pos (Dec.veq_refl _)]
    · have hk : sklt isBid x.1 p := hx (p, t) h4
      rw [lookupVal_cons, if_neg (not_veq_of_sklt hk)]
      exact ih htl h4

theorem lookupVal_isSome_of_vmem {v : View} {p : Dec}
    (h : ∃ y ∈ v, y.1.veq p) : ∃ t, lookupVal v p = some t := by
  rcases hl : lookupVal v p with _ | t
  · obtain ⟨y, hy, hv⟩ := h
    exact absurd hv (lookupVal_none_iff.mp hl y hy)
  · exact ⟨t, rfl⟩

/-- When value lookup succeeds on a view, the returned size belongs to
a value-equal entry of the view. -/
theorem lookupVal_mem {v : View} {p t : Dec}
    (h : lookupVal v p = some t) : ∃ r, (r, t) ∈ v ∧ r.veq p := by
  induction v with
  | nil => cases h
  | cons x tl ih =>
    rw [lookupVal_cons] at h
    by_cases hv : x.1.veq p
    · rw [if_pos hv] at h
      exact ⟨x.1, by rw [Option.some_inj.mp h.symm] at *; exact List.mem_cons_self x tl, hv⟩
    · rw [if_neg hv] at h
      obtain ⟨r, hr, hrv⟩ := ih h
      exact ⟨r, List.mem_cons_of_mem x hr, hrv⟩

/-- The old and new top views of spec scenario 2. -/
def exOldTop : View :=
  [(⟨101, 0⟩, ⟨15, 0⟩), (⟨100, 0⟩, ⟨10, 0⟩), (⟨99, 0⟩, ⟨5, 0⟩)]

def exNewTop : View :=
  [(⟨101, 0⟩, ⟨15, 0⟩), (⟨100, 0⟩, ⟨20, 0⟩), (⟨98, 0⟩, ⟨7, 0⟩)]

/-- C4: _calculate_deltas emits exactly the entries of the new view at
prices absent from the old view, the entries of the new view whose
size string changed, and a zero entry for every old price absent from
the new view; unchanged price levels are omitted.  Both views are
taken as mappings keyed by the Decimal price: the old view is sorted
(it is a slice of a sorted halfbook, which its internal bisect lookup
requires), the new view has value-distinct prices, and a price value
occurring in both views occurs under the same representation.  On the
spec scenario the emitted entries are exactly
(100, 20), (98, 7), (99, 0). -/
theorem calcDeltas_mem_spec (newV oldV : View) (isBid : Bool)
    (hold : sortedV isBid oldV)
    (hinj : ∀ x ∈ newV, ∀ y ∈ oldV, x.1.veq y.1 → x.1 = y.1) (p s : Dec) :
    (p, s) ∈ calculateDeltas newV oldV isBid ↔
      ((p, s) ∈ newV ∧ ∀ t, (p, t) ∉ oldV) ∨
      ((p, s) ∈ newV ∧ ∃ t, (p, t) ∈ oldV ∧ t ≠ s) ∨
      (s = Dec.zero ∧ (∃ t, (p, t) ∈ oldV) ∧ ∀ u, (p, u) ∉ newV) := by
  unfold calculateDeltas
  rw [List.mem_append, List.mem_filterMap, List.mem_map]
  constructor
  · rintro (⟨x, hx, hfm⟩ | ⟨x, hf, hmap⟩)
    · -- the adds-and-changes loop
      by_cases hvm : vmem x.1 oldV
      · rw [if_pos hvm] at hfm
        obtain ⟨t0, hl⟩ := lookupVal_isSome_of_vmem (vmem_iff.mp hvm)
        rw [getQty_eq_lookupVal hold, hl] at hfm
        change (if t0 ≠ x.2 then some x else none) = some (p, s) at hfm
        by_cases hne : t0 ≠ x.2
        · rw [if_pos hne] at hfm
          have hxps : x = (p, s) := Option.some_inj.mp hfm
          have hp1 : x.1 = p := congrArg Prod.fst hxps
          have hs1 : x.2 = s := congrArg Prod.snd hxps
          obtain ⟨r, hrm, hrv⟩ := lookupVal_mem hl
          have hrp : x.1 = r := hinj x hx (r, t0) hrm (Dec.veq_symm hrv)
          right; left
          refine ⟨hxps ▸ hx, t0, ?_, ?_⟩
          · rw [← hp1, hrp]; exact hrm
          · rw [← hs1]; exact hne
        · rw [if_neg hne] at hfm
          cases hfm
      · rw [if_neg hvm] at hfm
        have hxps : x = (p, s) := Option.some_inj.mp hfm
        have hp1 : x.1 = p := congrArg Prod.fst hxps
        left
        refine ⟨hxps ▸ hx, fun t ht => ?_⟩
        refine hvm (vmem_iff.mpr ⟨(x.1, t), ?_, Dec.veq_refl _⟩)
        rw [hp1]; exact ht
    · -- the removals loop
      obtain ⟨hxm, hnm⟩ := List.mem_filter.mp hf
      have hp1 : x.1 = p := congrArg Prod.fst hmap
      have hs1 : Dec.zero = s := congrArg Prod.snd hmap
      right; right
      refine ⟨hs1.symm, ⟨x.2, by rw [← hp1]; exact hxm⟩, fun u hu => ?_⟩
      rw [← hp1] at hu
      have hvt : vmem x.1 newV = true :=
        vmem_iff.mpr ⟨(x.1, u), hu, Dec.veq_refl _⟩
      rw [hvt] at hnm
      cases hnm
  · rintro (⟨hmem, habs⟩ | ⟨hmem, t, hmt, hne⟩ | ⟨hz, ⟨t, hmt⟩, habs⟩)
    · -- entered the top N
      left
      refine ⟨(p, s), hmem, ?_⟩
      have hvm : vmem p oldV = false := by
        rcases hv : vmem p oldV
        · rfl
        · exfalso
          obtain ⟨y, hy, hyv⟩ := vmem_iff.mp hv
          have hpy : p = y.1 := hinj (p, s) hmem y hy (Dec.veq_symm hyv)
          exact habs y.2 (by rw [hpy]; simpa using hy)
      simp [hvm]
    · -- size changed
      left
      refine ⟨(p, s), hmem, ?_⟩
      have hvm : vmem p oldV = true :=
        vmem_iff.mpr ⟨(p, t), hmt, Dec.veq_refl _⟩
      have hl : lookupVal oldV p = some t := lookupVal_eq_some_of_mem hold hmt
      have hq : getQty isBid oldV ((p, s) : Dec × Dec).1 = some t := by
        rw [getQty_eq_lookupVal hold]; exact hl
      simp only [hvm, if_true, hq]
      change (if t ≠ s then some (p, s) else none) = some (p, s)
      rw [if_pos hne]
    · -- left the top N
      right
      refine ⟨(p, t), List.mem_filter.mpr ⟨hmt, ?_⟩, ?_⟩
      · have hvm : vmem p newV = false := by
          rcases hv : vmem p newV
          · rfl
          · exfalso
            obtain ⟨y, hy, hyv⟩ := vmem_iff.mp hv
            have hyp : y.1 = p := hinj y hy (p, t) hmt hyv
            exact habs y.2 (by rw [← hyp]; simpa using hy)
        simp [hvm]
      · rw [hz]

theorem C4_calculate_deltas (newV oldV : View) (isBid : Bool)
    (hold : sortedV isBid oldV) (hnew : vNodup newV)
    (hinj : ∀ x ∈ newV, ∀ y ∈ oldV, x.1.veq y.1 → x.1 = y.1) :
    (∀ p s : Dec,
      ((p, s) ∈ calculateDeltas newV oldV isBid ↔
        ((p, s) ∈ newV ∧ ∀ t, (p, t) ∉ oldV) ∨
        ((p, s) ∈ newV ∧ ∃ t, (p, t) ∈ oldV ∧ t ≠ s) ∨
        (s = Dec.zero ∧ (∃ t, (p, t) ∈ oldV) ∧ ∀ u, (p, u) ∉ newV))) ∧
    calculateDeltas exNewTop exOldTop true =
      [(⟨100, 0⟩, ⟨20, 0⟩), (⟨98, 0⟩, ⟨7, 0⟩), (⟨99, 0⟩, ⟨0, 0⟩)] :=
  ⟨fun p s => calcDeltas_mem_spec newV oldV isBid hold hinj p s, by decide⟩

/-- Witness for C4 at spec scenario 2. -/
theorem C4_calculate_deltas_witness :
    (sortedV true exOldTop ∧ vNodup exNewTop) ∧
    calculateDeltas exNewTop exOldTop true =
      [(⟨100, 0⟩, ⟨20, 0⟩), (⟨98, 0⟩, ⟨7, 0⟩), (⟨99, 0⟩, ⟨0, 0⟩)] :=
  ⟨⟨by decide, by decide⟩,
    (C4_calculate_deltas exNewTop exOldTop true (by decide) (by decide)
      (by decide)).2⟩

/-! ## Traverser state and _process_update (orderbook_traverser.py) -/

/-- OrderbookState: the reconstructed book of the traverser.  The sides
are plain lists of price and size strings. -/
structure OBState where
  bids : View
  asks : View
  timestamp : Int
  sequence : Int
deriving DecidableEq, Repr

/-- A compressed record: timestamp, sequence and the optional sides (a
missing key of the JSON object is none). -/
structure Rec where
  t : Int
  s : Int
  b : Option View
  a : Option View
deriving DecidableEq, Repr

/-- Python dict assignment d[p] = q: one entry per price string,
first-occurrence position, latest value. -/
def upsertK (m : View) (p q : Dec) : View :=
  if m.any (fun y => decide (y.1 = p)) then
    m.map (fun y => if y.1 = p then (p, q) else y)
  else m ++ [(p, q)]

/-- Python dict d.pop(p, None). -/
def popK (m : View) (p : Dec) : View :=
  m.filter (fun y => !decide (y.1 = p))

/-- The dict comprehension over a side: price string to size string. -/
def dictOf (v : View) : View :=
  v.foldl (fun m x => upsertK m x.1 x.2) []

/-- One side of _process_update: build the dict of the current side,
pop every record entry whose size parses to zero and assign the others,
then sort by Decimal price value, descending for bids and ascending
for asks.  The source sorts tuples of (Decimal(price), price, size),
so entries with equal Decimal values would tie-break on the string
forms; the theorems below exclude such ties and the counterexample
only relies on the length of the result. -/
def applySide (isBid : Bool) (cur entries : View) : View :=
  sortV isBid (entries.foldl
    (fun m x => if x.2.isZero then popK m x.1 else upsertK m x.1 x.2)
    (dictOf cur))

/-- _process_update: apply each present side and take over the record
timestamp and sequence number. -/
def procUpdate (st : OBState) (r : Rec) : OBState :=
  { bids := match r.b with
      | some e => applySide true st.bids e
      | none => st.bids
    asks := match r.a with
      | some e => applySide false st.asks e
      | none => st.asks
    timestamp := r.t
    sequence := r.s }

/-- Pairwise distinctness of the price strings (dict keys). -/
def sNodup (m : View) : Prop := m.Pairwise (fun a b => a.1 ≠ b.1)

instance (m : View) : Decidable (sNodup m) :=
  inferInstanceAs (Decidable (List.Pairwise _ _))

theorem upsertK_mem {m : View} {p q : Dec} :
    ∀ y ∈ upsertK m p q, y = (p, q) ∨ y ∈ m := by
  intro y hy
  unfold upsertK at hy
  split_ifs at hy with h1
  · obtain ⟨z, hz, hzy⟩ := List.mem_map.mp hy
    by_cases hzp : z.1 = p
    · rw [if_pos hzp] at hzy; left; exact hzy.symm
    · rw [if_neg hzp] at hzy; right; rw [← hzy]; exact hz
  · rcases List.mem_append.mp hy with h2 | h2
    · right; exact h2
    · left; exact List.mem_singleton.mp h2

theorem popK_mem {m : View} {p : Dec} : ∀ y ∈ popK m p, y ∈ m :=
  fun y hy => (List.mem_filter.mp hy).1

theorem upsertK_sNodup {m : View} {p q : Dec} (h : sNodup m) :
    sNodup (upsertK m p q) := by
  unfold upsertK
  split_ifs with h1
  · rw [sNodup, List.pairwise_map]
    refine h.imp ?_
    intro a b hab
    by_cases hap : a.1 = p <;> by_cases hbp : b.1 = p
    · exact absurd (hap.trans hbp.symm) hab
    · rw [if_pos hap, if_neg hbp]; simpa [hap] using fun hc => hbp hc.symm
    · rw [if_neg hap, if_pos hbp]; simpa [hbp] using hap
    · rw [if_neg hap, if_neg hbp]; exact hab
  · rw [sNodup, List.pairwise_append]
    refine ⟨h, List.pairwise_singleton _ _, ?_⟩
    intro a ha b hb
    rw [List.mem_singleton.mp hb]
    intro hc
    rw [List.any_eq_true] at h1
    exact h1 ⟨a, ha, decide_eq_true hc⟩

theorem popK_sNodup {m : View} {p : Dec} (h : sNodup m) : sNodup (popK m p) :=
  h.sublist (List.filter_sublist m)

theorem dictOf_fold_mem {v : View} :
    ∀ {acc : View}, ∀ y ∈ v.foldl (fun m x => upsertK m x.1 x.2) acc,
      y ∈ acc ∨ y ∈ v := by
  induction v with
  | nil => intro acc y hy; left; exact hy
  | cons x t ih =>
    intro acc y hy
    rcases ih y hy with h2 | h2
    · rcases upsertK_mem y h2 with h3 | h3
      · right
        rw [h3, show ((x.1, x.2) : Dec × Dec) = x from rfl]
        exact List.mem_cons_self x t
      · left; exact h3
    · right; exact List.mem_cons_of_mem x h2

theorem dictOf_mem {v : View} : ∀ y ∈ dictOf v, y ∈ v := by
  intro y hy
  rcases dictOf_fold_mem y hy with h | h
  · cases h
  · exact h

theorem dictOf_fold_sNodup {v : View} :
    ∀ {acc : View}, sNodup acc →
      sNodup (v.foldl (fun m x => upsertK m x.1 x.2) acc) := by
  induction v with
  | nil => intro acc h; exact h
  | cons x t ih => intro acc h; exact ih (upsertK_sNodup h)

theorem dictOf_sNodup {v : View} : sNodup (dictOf v) :=
  dictOf_fold_sNodup List.Pairwise.nil

/-- Membership in the delta-application fold: every entry comes from
the starting dict or is a nonzero record entry. -/
theorem applyFold_mem {ent : View} :
    ∀ {m : View}, ∀ y ∈ ent.foldl
        (fun m x => if x.2.isZero then popK m x.1 else upsertK m x.1 x.2) m,
      y ∈ m ∨ (y ∈ ent ∧ ¬ y.2.isZero) := by
  induction ent with
  | nil => intro m y hy; left; exact hy
  | cons x t ih =>
    intro m y hy
    rcases ih y hy with h2 | h2
    · dsimp only at h2
      by_cases hz : x.2.isZero
      · rw [if_pos hz] at h2
        left; exact popK_mem y h2
      · rw [if_neg hz] at h2
        rcases upsertK_mem y h2 with h3 | h3
        · right
          refine ⟨?_, ?_⟩
          · rw [h3, show ((x.1, x.2) : Dec × Dec) = x from rfl]
            exact List.mem_cons_self x t
          · rw [h3]; exact hz
        · left; exact h3
    · right; exact ⟨List.mem_cons_of_mem x h2.1, h2.2⟩

theorem applyFold_sNodup {ent : View} :
    ∀ {m : View}, sNodup m →
      sNodup (ent.foldl
        (fun m x => if x.2.isZero then popK m x.1 else upsertK m x.1 x.2) m) := by
  induction ent with
  | nil => intro m h; exact h
  | cons x t ih =>
    intro m h
    by_cases hz : x.2.isZero
    · simpa [hz] using ih (popK_sNodup h)
    · simpa [hz] using ih (upsertK_sNodup h)

/-- Value-distinctness of the applied side, from string distinctness of
the dict plus the representation hypotheses. -/
theorem applyFold_vNodup {pre ent : View}
    (hpre : vNodup pre) (hent : vNodup ent)
    (hinj : ∀ x ∈ pre, ∀ y ∈ ent, x.1.veq y.1 → x.1 = y.1) :
    vNodup (ent.foldl
      (fun m x => if x.2.isZero then popK m x.1 else upsertK m x.1 x.2)
      (dictOf pre)) := by
  have hsn : sNodup (ent.foldl
      (fun m x => if x.2.isZero then popK m x.1 else upsertK m x.1 x.2)
      (dictOf pre)) := applyFold_sNodup dictOf_sNodup
  refine hsn.imp_of_mem ?_
  intro a b ha hb hne hveq
  have hprov : ∀ y, y ∈ (ent.foldl
      (fun m x => if x.2.isZero then popK m x.1 else upsertK m x.1 x.2)
      (dictOf pre)) → y ∈ pre ∨ y ∈ ent := by
    intro y hy
    rcases applyFold_mem y hy with h2 | h2
    · left; exact dictOf_mem y h2
    · right; exact h2.1
  have hab : a.1 ≠ b.1 := hne
  rcases hprov a ha with hap | hae <;> rcases hprov b hb with hbp | hbe
  · by_cases heq : a = b
    · exact hab (congrArg Prod.fst heq)
    · exact (List.Pairwise.forall vNodup_symm hpre) hap hbp heq hveq
  · exact hab (hinj a hap b hbe hveq)
  · exact hab ((hinj b hbp a hae (Dec.veq_symm hveq)).symm)
  · by_cases heq : a = b
    · exact hab (congrArg Prod.fst heq)
    · exact (List.Pairwise.forall vNodup_symm hent) hae hbe heq hveq

/-- The three invariants of one applied side. -/
theorem applySide_invariants (isBid : Bool) (pre ent : View)
    (hpre : vNodup pre) (hent : vNodup ent)
    (hinj : ∀ x ∈ pre, ∀ y ∈ ent, x.1.veq y.1 → x.1 = y.1)
    (hz : ∀ y ∈ pre, ¬ y.2.isZero) :
    sortedV isBid (applySide isBid pre ent) ∧
      vNodup (applySide isBid pre ent) ∧
      ∀ y ∈ applySide isBid pre ent, ¬ y.2.isZero := by
  have hvn := applyFold_vNodup hpre hent hinj
  have hperm := sortV_perm isBid (ent.foldl
    (fun m x => if x.2.isZero then popK m x.1 else upsertK m x.1 x.2)
    (dictOf pre))
  refine ⟨sortedV_sortV isBid _ hvn, ?_, ?_⟩
  · exact (List.Perm.pairwise_iff (fun h => vNodup_symm h) hperm).mpr hvn
  · intro y hy
    have hy2 := hperm.mem_iff.mp hy
    rcases applyFold_mem y hy2 with h2 | h2
    · exact hz y (dictOf_mem y h2)
    · exact h2.2

/-- The pre-state and record of the C10 counterexample: the bid side
holds the level 100 with size 0, and the record updates the same value
under the spelling 100.0. -/
def c10st : OBState :=
  { bids := [(⟨100, 0⟩, ⟨0, 0⟩)], asks := [], timestamp := 0, sequence := 0 }

def c10rec : Rec :=
  { t := 1, s := 1, b := some [(⟨1000, 1⟩, ⟨3, 0⟩)], a := none }

/-- C10 counterexample: the claimed hypotheses hold (prices within the
record side and within the pre-state side are pairwise value-distinct),
yet the produced bid side is not strictly descending, has two
Decimal-equal prices, and keeps a zero-size entry. -/
theorem C10_counterexample :
    vNodup c10st.bids ∧ vNodup [((⟨1000, 1⟩ : Dec), (⟨3, 0⟩ : Dec))] ∧
    ¬ sortedV true (procUpdate c10st c10rec).bids ∧
    ¬ vNodup (procUpdate c10st c10rec).bids ∧
    ¬ (∀ y ∈ (procUpdate c10st c10rec).bids, ¬ y.2.isZero) := by
  refine ⟨by decide, by decide, by decide, by decide, ?_⟩
  intro h
  exact h (⟨100, 0⟩, ⟨0, 0⟩) (by decide) (by decide)

/-- C10 amended: for a record side that is present, with value-distinct
prices within the record side, a pre-state side that is free of
zero-parsing sizes and value-distinct, and no price value shared by
the two sides under different spellings, the side produced by
_process_update is strictly sorted by Decimal value in polarity order,
has pairwise value-distinct prices, and has no zero-parsing size. -/
theorem C10_process_update_invariants (isBid : Bool) (st : OBState)
    (r : Rec) (ent : View)
    (hside : (if isBid then r.b else r.a) = some ent)
    (hpre : vNodup (if isBid then st.bids else st.asks))
    (hent : vNodup ent)
    (hinj : ∀ x ∈ (if isBid then st.bids else st.asks), ∀ y ∈ ent,
      x.1.veq y.1 → x.1 = y.1)
    (hz : ∀ y ∈ (if isBid then st.bids else st.asks), ¬ y.2.isZero) :
    sortedV isBid
        (if isBid then (procUpdate st r).bids else (procUpdate st r).asks) ∧
      vNodup
        (if isBid then (procUpdate st r).bids else (procUpdate st r).asks) ∧
      ∀ y ∈ (if isBid then (procUpdate st r).bids else (procUpdate st r).asks),
        ¬ y.2.isZero := by
  have hres : (if isBid then (procUpdate st r).bids else (procUpdate st r).asks)
      = applySide isBid (if isBid then st.bids else st.asks) ent := by
    cases isBid
    · simp only [if_false, Bool.false_eq_true] at hside ⊢
      simp [procUpdate, hside]
    · simp only [if_true] at hside ⊢
      simp [procUpdate, hside]
  rw [hres]
  exact applySide_invariants isBid _ ent hpre hent hinj hz

/-- The pre-state of the C10 witness. -/
def c10wst : OBState :=
  { bids := [(⟨101, 0⟩, ⟨5, 0⟩)], asks := [], timestamp := 0, sequence := 0 }

/-- Witness for the amended C10: canonical single-level update. -/
theorem C10_process_update_invariants_witness :
    ((if true then c10rec.b else c10rec.a) =
        some [((⟨1000, 1⟩ : Dec), (⟨3, 0⟩ : Dec))]) ∧
      sortedV true
        (if true then (procUpdate c10wst c10rec).bids
          else (procUpdate c10wst c10rec).asks) := by
  refine ⟨by decide, ?_⟩
  exact (C10_process_update_invariants true c10wst c10rec
    [(⟨1000, 1⟩, ⟨3, 0⟩)]
    (by decide) (by decide) (by decide) (by decide) (by decide)).1

/-! ## The compressor (OrderbookProcessor, orderbook_processor.py) -/

/-- The data object of a raw exchange message; a side key absent from
the JSON object is none. -/
structure MsgData where
  b : Option View
  a : Option View
  seq : Int
deriving DecidableEq, Repr

/-- A raw exchange message. -/
structure Msg where
  type : String
  ts : Int
  data : MsgData
deriving DecidableEq, Repr

/-- Compressor state: the two full-depth halfbooks, the configured
output depth and the first-message flag. -/
structure CState where
  bids : View
  asks : View
  maxOutputDepth : Nat
  firstMessage : Bool
deriving DecidableEq, Repr

def initC (n : Nat) : CState :=
  { bids := [], asks := [], maxOutputDepth := n, firstMessage := true }

/-- _update_halfbook: apply every level update to the halfbook. -/
def updateHalfbook (isBid : Bool) (hb : View) (updates : View) : View :=
  updates.foldl (fun h x => update isBid h x.1 x.2) hb

/-- One side of the delta branch of process_message: for a nonempty
update list, clone-and-update the halfbook and diff the top slices;
for an empty (falsy) list leave the book alone and produce the Python
None. -/
def sideStep (isBid : Bool) (hb : View) (updates : View) (n : Nat) :
    View × Option View :=
  if updates.isEmpty then (hb, none)
  else
    let nb := updateHalfbook isBid hb updates
    (nb, some (calculateDeltas (nb.take n) (hb.take n) isBid))

/-- Python truthiness of the delta list: only a nonempty list is
written into the output record. -/
def sideOut (d : Option View) : Option View :=
  match d with
  | some (x :: xs) => some (x :: xs)
  | _ => none

/-- OrderbookProcessor.process_message.  The first message must be of
type snapshot and initializes both books from the (required) sides,
emitting a snapshot record of the top slices.  Every later message is
processed through the delta branch, which reads both side keys
unconditionally (an absent key raises KeyError), updates each side
with a nonempty list, and emits a record only when some side produced
a nonempty delta. -/
def processMessage (st : CState) (msg : Msg) :
    Except String (CState × Option Rec) :=
  if st.firstMessage then
    if msg.type ≠ "snapshot" then
      .error "ValueError: first message must be a snapshot"
    else
      match msg.data.b, msg.data.a with
      | some bl, some al =>
        let bids := hbSet true bl
        let asks := hbSet false al
        .ok ({ bids := bids, asks := asks,
               maxOutputDepth := st.maxOutputDepth, firstMessage := false },
             some { t := msg.ts, s := msg.data.seq,
                    b := some (bids.take st.maxOutputDepth),
                    a := some (asks.take st.maxOutputDepth) })
      | none, _ => .error "KeyError: b"
      | some _, none => .error "KeyError: a"
  else
    match msg.data.b, msg.data.a with
    | some bl, some al =>
      let bs := sideStep true st.bids bl st.maxOutputDepth
      let sa := sideStep false st.asks al st.maxOutputDepth
      let rb := sideOut bs.2
      let ra := sideOut sa.2
      .ok ({ st with bids := bs.1, asks := sa.1 },
           if rb.isSome ∨ ra.isSome then
             some { t := msg.ts, s := msg.data.seq, b := rb, a := ra }
           else none)
    | none, _ => .error "KeyError: b"
    | some _, none => .error "KeyError: a"

def isErr {ε α : Type} : Except ε α → Bool
  | .error _ => true
  | .ok _ => false

/-! ## C8 and C9: delta-branch error handling and the ignored type -/

/-- A compressor state past its first message. -/
def c8st : CState :=
  { bids := [(⟨100, 0⟩, ⟨10, 0⟩)], asks := [],
    maxOutputDepth := 20, firstMessage := false }

/-- A delta message whose b key is absent. -/
def c8delta : Msg :=
  { type := "delta", ts := 1100,
    data := { b := none, a := some [(⟨100, 0⟩, ⟨20, 0⟩)], seq := 2 } }

/-- C8 counterexample: a delta message with the b key absent is fatal
(the source reads data of key b unconditionally), not a no-change on
that side as the claim states. -/
theorem C8_counterexample :
    c8st.firstMessage = false ∧
      isErr (processMessage c8st c8delta) = true := by
  exact ⟨rfl, rfl⟩

/-- Evaluation of the delta branch of process_message when both side
keys are present. -/
theorem processMessage_delta (st : CState) (h : st.firstMessage = false)
    (ty : String) (t s : Int) (bl al : View) :
    processMessage st ⟨ty, t, ⟨some bl, some al, s⟩⟩ =
      .ok
        ({ st with
            bids := (sideStep true st.bids bl st.maxOutputDepth).1,
            asks := (sideStep false st.asks al st.maxOutputDepth).1 },
         if (sideOut (sideStep true st.bids bl st.maxOutputDepth).2).isSome ∨
            (sideOut (sideStep false st.asks al st.maxOutputDepth).2).isSome
         then
           some
             { t := t, s := s,
               b := sideOut (sideStep true st.bids bl st.maxOutputDepth).2,
               a := sideOut (sideStep false st.asks al st.maxOutputDepth).2 }
         else none) := by
  simp only [processMessage, h, Bool.false_eq_true, if_false]

/-- C8 amended: on a message after the first, a side key holding an
empty list means no change on that side (the corresponding halfbook is
untouched, the output record carries no entries for that side, and no
error is raised), while an absent side key raises a KeyError on a
delta just as under a snapshot. -/
theorem C8_empty_side_no_change (st : CState) (h : st.firstMessage = false)
    (ty : String) (t s : Int) :
    (∀ al,
      ∃ st2 orec,
        processMessage st ⟨ty, t, ⟨some [], some al, s⟩⟩ = .ok (st2, orec) ∧
        st2.bids = st.bids ∧ ∀ r, orec = some r → r.b = none) ∧
    (∀ bl,
      ∃ st2 orec,
        processMessage st ⟨ty, t, ⟨some bl, some [], s⟩⟩ = .ok (st2, orec) ∧
        st2.asks = st.asks ∧ ∀ r, orec = some r → r.a = none) ∧
    (∀ ao, isErr (processMessage st ⟨ty, t, ⟨none, ao, s⟩⟩) = true) ∧
    (∀ bl, isErr (processMessage st ⟨ty, t, ⟨some bl, none, s⟩⟩) = true) := by
  refine ⟨?_, ?_, ?_, ?_⟩
  · intro al
    rw [processMessage_delta st h ty t s [] al]
    refine ⟨_, _, rfl, rfl, ?_⟩
    intro r hr
    split_ifs at hr with hc
    rw [← Option.some_inj.mp hr]; rfl
  · intro bl
    rw [processMessage_delta st h ty t s bl []]
    refine ⟨_, _, rfl, rfl, ?_⟩
    intro r hr
    split_ifs at hr with hc
    rw [← Option.some_inj.mp hr]; rfl
  · intro ao
    simp only [processMessage, h, Bool.false_eq_true, if_false]
    rfl
  · intro bl
    simp only [processMessage, h, Bool.false_eq_true, if_false]
    rfl

/-- Witness for the amended C8 at a concrete state and message. -/
theorem C8_empty_side_no_change_witness :
    c8st.firstMessage = false ∧
      isErr (processMessage c8st ⟨"delta", 1100, ⟨none, some [], 2⟩⟩) = true := by
  refine ⟨rfl, ?_⟩
  exact (C8_empty_side_no_change c8st rfl "delta" 1100 2).2.2.1 (some [])

/-- C9: after the first message the type field is ignored entirely: the
result of process_message does not depend on it, so a second message
of type snapshot goes through the delta branch exactly like a delta,
does not reinitialize the halfbooks and raises no protocol error
(given both side keys are present, it raises nothing at all). -/
theorem C9_type_ignored_after_first (st : CState) (msg : Msg) (ty : String)
    (h : st.firstMessage = false) :
    processMessage st msg = processMessage st { msg with type := ty } ∧
    (∀ bl al, msg.data.b = some bl → msg.data.a = some al →
      isErr (processMessage st msg) = false) := by
  constructor
  · simp only [processMessage, h, Bool.false_eq_true, if_false]
  · intro bl al hb ha
    simp only [processMessage, h, Bool.false_eq_true, if_false, hb, ha]
    rfl

/-- Witness for C9: a second snapshot-typed message is processed like a
delta-typed one. -/
theorem C9_type_ignored_after_first_witness :
    c8st.firstMessage = false ∧
      processMessage c8st
          { type := "snapshot", ts := 1100,
            data := ⟨some [(⟨100, 0⟩, ⟨20, 0⟩)], some [], 2⟩ } =
        processMessage c8st
          { type := "delta", ts := 1100,
            data := ⟨some [(⟨100, 0⟩, ⟨20, 0⟩)], some [], 2⟩ } := by
  refine ⟨rfl, ?_⟩
  exact (C9_type_ignored_after_first c8st
    { type := "snapshot", ts := 1100,
      data := ⟨some [(⟨100, 0⟩, ⟨20, 0⟩)], some [], 2⟩ } "delta" rfl).1

/-! ## Structural-key lookup and the replay correspondence

The traverser dictionaries are keyed by the price string, so the
round-trip argument runs over a structural-key association lookup. -/

/-- Lookup by price string (structural key). -/
def lookupK (m : View) (p : Dec) : Option Dec :=
  (m.find? (fun y => decide (y.1 = p))).map (fun y => y.2)

theorem lookupK_nil (p : Dec) : lookupK [] p = none := rfl

theorem lookupK_cons (x : Dec × Dec) (t : View) (p : Dec) :
    lookupK (x :: t) p = if x.1 = p then some x.2 else lookupK t p := by
  unfold lookupK
  rw [List.find?_cons]
  by_cases h : x.1 = p
  · simp [h]
  · simp [h]

theorem lookupK_eq_none {m : View} {p : Dec}
    (h : ∀ y ∈ m, y.1 ≠ p) : lookupK m p = none := by
  induction m with
  | nil => rfl
  | cons x t ih =>
    rw [lookupK_cons, if_neg (h x (List.mem_cons_self x t))]
    exact ih (fun y hy => h y (List.mem_cons_of_mem x hy))

theorem lookupK_none_iff {m : View} {p : Dec} :
    lookupK m p = none ↔ ∀ y ∈ m, y.1 ≠ p := by
  unfold lookupK
  rw [Option.map_eq_none', List.find?_eq_none]
  simp

theorem lookupK_eq_some_of_mem {m : View} {p t : Dec}
    (hs : sNodup m) (hm : (p, t) ∈ m) : lookupK m p = some t := by
  induction m with
  | nil => cases hm
  | cons x tl ih =>
    obtain ⟨hx, htl⟩ := List.pairwise_cons.mp hs
    rcases List.mem_cons.mp hm with h4 | h4
    · rw [← h4, lookupK_cons, if_pos rfl]
    · have hk : x.1 ≠ p := hx (p, t) h4
      rw [lookupK_cons, if_neg hk]
      exact ih htl h4

theorem lookupK_mem {m : View} {p t : Dec}
    (h : lookupK m p = some t) : (p, t) ∈ m := by
  induction m with
  | nil => cases h
  | cons x tl ih =>
    rw [lookupK_cons] at h
    by_cases hv : x.1 = p
    · rw [if_pos hv] at h
      have ht : x.2 = t := Option.some_inj.mp h
      have : x = (p, t) := by
        cases x
        simp only at hv ht
        rw [hv, ht]
      rw [← this]
      exact List.mem_cons_self x tl
    · rw [if_neg hv] at h
      exact List.mem_cons_of_mem x (ih h)

/-- Structural-key lookup only depends on the contents for key-distinct
views, so it is invariant under permutation. -/
theorem lookupK_perm {u w : View} (hperm : List.Perm u w) (hw : sNodup w)
    (r : Dec) : lookupK u r = lookupK w r := by
  have hu : sNodup u :=
    (List.Perm.pairwise_iff (fun h h2 => h h2.symm) hperm).mpr hw
  rcases hl : lookupK w r with _ | q
  · refine lookupK_eq_none (fun y hy => ?_)
    exact lookupK_none_iff.mp hl y (hperm.mem_iff.mp hy)
  · exact lookupK_eq_some_of_mem hu (hperm.mem_iff.mpr (lookupK_mem hl))

/-- Value-distinct prices are in particular string-distinct. -/
theorem vNodup_sNodup {v : View} (h : vNodup v) : sNodup v := by
  refine h.imp ?_
  intro a b hab hc
  exact hab (hc ▸ Dec.veq_refl a.1)

/-- A strictly sorted view cannot repeat a price string. -/
theorem sortedV_sNodup {isBid : Bool} {v : View} (h : sortedV isBid v) :
    sNodup v :=
  vNodup_sNodup (sortedV_vNodup h)

theorem lookupK_map_ne (m : View) (p q r : Dec) (h : r ≠ p) :
    lookupK (m.map (fun y => if y.1 = p then (p, q) else y)) r =
      lookupK m r := by
  induction m with
  | nil => rfl
  | cons x t ih =>
    rw [List.map_cons, lookupK_cons, lookupK_cons]
    by_cases hx : x.1 = p
    · rw [if_pos hx]
      rw [if_neg (show ¬ ((p, q) : Dec × Dec).1 = r from fun hc => h hc.symm)]
      rw [if_neg (show ¬ x.1 = r by intro hc; rw [hc] at hx; exact h hx)]
      exact ih
    · rw [if_neg hx]
      by_cases hxr : x.1 = r
      · rw [if_pos hxr, if_pos hxr]
      · rw [if_neg hxr, if_neg hxr]
        exact ih

theorem lookupK_map_self (m : View) (p q : Dec) (h : ∃ y ∈ m, y.1 = p) :
    lookupK (m.map (fun y => if y.1 = p then (p, q) else y)) p = some q := by
  induction m with
  | nil => obtain ⟨y, hy, _⟩ := h; cases hy
  | cons x t ih =>
    rw [List.map_cons, lookupK_cons]
    by_cases hx : x.1 = p
    · rw [if_pos hx, if_pos rfl]
    · simp only [if_neg hx]
      refine ih ?_
      obtain ⟨y, hy, hyp⟩ := h
      rcases List.mem_cons.mp hy with h4 | h4
      · exact absurd (h4 ▸ hyp) hx
      · exact ⟨y, h4, hyp⟩

theorem lookupK_append_right (m : View) (p q r : Dec)
    (h : ∀ y ∈ m, y.1 ≠ r) :
    lookupK (m ++ [(p, q)]) r = if p = r then some q else none := by
  induction m with
  | nil =>
    rw [List.nil_append, lookupK_cons]
    rfl
  | cons x t ih =>
    rw [List.cons_append, lookupK_cons,
      if_neg (h x (List.mem_cons_self x t))]
    exact ih (fun y hy => h y (List.mem_cons_of_mem x hy))

theorem lookupK_append_single_ne (m : View) (p q r : Dec) (hne : p ≠ r) :
    lookupK (m ++ [(p, q)]) r = lookupK m r := by
  induction m with
  | nil =>
    rw [List.nil_append, lookupK_cons, if_neg (show ¬ ((p, q) : Dec × Dec).1 = r from hne)]
  | cons x t ih =>
    rw [List.cons_append, lookupK_cons, lookupK_cons]
    by_cases hxr : x.1 = r
    · rw [if_pos hxr, if_pos hxr]
    · rw [if_neg hxr, if_neg hxr]
      exact ih

theorem lookupK_upsertK (m : View) (p q r : Dec) :
    lookupK (upsertK m p q) r = if p = r then some q else lookupK m r := by
  unfold upsertK
  split_ifs with h1 h2 h2
  · subst h2
    obtain ⟨y, hy, hd⟩ := List.any_eq_true.mp h1
    exact lookupK_map_self m p q ⟨y, hy, of_decide_eq_true hd⟩
  · exact lookupK_map_ne m p q r (fun hc => h2 hc.symm)
  · subst h2
    have habs : ∀ y ∈ m, y.1 ≠ p := by
      intro y hy hc
      rw [List.any_eq_true] at h1
      exact h1 ⟨y, hy, decide_eq_true hc⟩
    rw [lookupK_append_right m p q p habs, if_pos rfl]
  · exact lookupK_append_single_ne m p q r h2

theorem lookupK_popK (m : View) (p r : Dec) :
    lookupK (popK m p) r = if p = r then none else lookupK m r := by
  induction m with
  | nil =>
    unfold popK
    rw [List.filter_nil]
    split_ifs <;> rfl
  | cons x t ih =>
    unfold popK at ih ⊢
    rw [List.filter_cons]
    by_cases hx : x.1 = p
    · have hb : (!decide (x.1 = p)) = false := by simp [hx]
      rw [hb]
      simp only [Bool.false_eq_true, if_false]
      rw [ih]
      by_cases hpr : p = r
      · rw [if_pos hpr, if_pos hpr]
      · rw [if_neg hpr, if_neg hpr, lookupK_cons,
          if_neg (show ¬ x.1 = r by intro hc; rw [hx] at hc; exact hpr hc)]
    · have hb : (!decide (x.1 = p)) = true := by simp [hx]
      rw [hb]
      rw [if_pos rfl, lookupK_cons, lookupK_cons, ih]
      by_cases hxr : x.1 = r
      · rw [if_pos hxr,
          if_neg (show ¬ p = r by intro hc; exact hx (hxr.trans hc.symm)),
          if_pos hxr]
      · rw [if_neg hxr, if_neg hxr]

/-- Folding dict assignments of key-distinct entries just appends them. -/
theorem foldl_upsertK_append {v : View} :
    ∀ {acc : View}, sNodup (acc ++ v) →
      v.foldl (fun m x => upsertK m x.1 x.2) acc = acc ++ v := by
  induction v with
  | nil => intro acc _; simp
  | cons x t ih =>
    intro acc h
    obtain ⟨h1, h2, hcross⟩ := List.pairwise_append.mp h
    have habs : ∀ y ∈ acc, y.1 ≠ x.1 :=
      fun y hy => hcross y hy x (List.mem_cons_self x t)
    have hup : upsertK acc x.1 x.2 = acc ++ [x] := by
      unfold upsertK
      rw [if_neg ?hc]
      case hc =>
        intro hc
        obtain ⟨y, hy, hd⟩ := List.any_eq_true.mp hc
        exact habs y hy (of_decide_eq_true hd)
    have hre : acc ++ x :: t = (acc ++ [x]) ++ t := by
      rw [List.append_assoc]
      rfl
    rw [List.foldl_cons, hup, ih (by rw [hre] at h; exact h), hre]

/-- The dict of a key-distinct side is the side itself. -/
theorem dictOf_eq_self {v : View} (h : sNodup v) : dictOf v = v := by
  have h2 : sNodup (([] : View) ++ v) := by simpa using h
  have := foldl_upsertK_append h2
  simpa [dictOf] using this

/-- Characterization of one delta application: a record side with
key-distinct entries rewrites the lookup of every price exactly as the
record dictates and leaves every other price alone. -/
theorem lookupK_applyFold {ent : View} :
    ∀ {m : View}, sNodup ent → ∀ r,
      lookupK (ent.foldl
        (fun m x => if x.2.isZero then popK m x.1 else upsertK m x.1 x.2) m) r =
      match lookupK ent r with
      | some q => if q.isZero then none else some q
      | none => lookupK m r := by
  induction ent with
  | nil => intro m _ r; rfl
  | cons x t ih =>
    intro m hsn r
    obtain ⟨hx, ht⟩ := List.pairwise_cons.mp hsn
    rw [List.foldl_cons, ih ht r, lookupK_cons]
    by_cases hxr : x.1 = r
    · rw [if_pos hxr]
      have htr : lookupK t r = none :=
        lookupK_eq_none (fun y hy hc => hx y hy (hxr.trans hc.symm))
      rw [htr]
      by_cases hz : x.2.isZero
      · rw [if_pos hz]
        show lookupK (popK m x.1) r = if x.2.isZero then none else some x.2
        rw [if_pos hz, lookupK_popK, if_pos hxr]
      · rw [if_neg hz]
        show lookupK (upsertK m x.1 x.2) r =
          if x.2.isZero then none else some x.2
        rw [if_neg hz, lookupK_upsertK, if_pos hxr]
    · rw [if_neg hxr]
      rcases hlt : lookupK t r with _ | q
      · show lookupK (if x.2.isZero then popK m x.1 else upsertK m x.1 x.2) r =
          lookupK m r
        by_cases hz : x.2.isZero
        · rw [if_pos hz, lookupK_popK, if_neg hxr]
        · rw [if_neg hz, lookupK_upsertK, if_neg hxr]
      · rfl

theorem sklt_irrefl {isBid : Bool} (a : Dec) : ¬ sklt isBid a a := by
  rw [sklt_iff_skq]
  exact lt_irrefl _

/-- Two views that are strictly sorted by the same polarity and agree
on every string-key lookup are equal. -/
theorem eq_of_sortedV_lookupK {isBid : Bool} :
    ∀ {u w : View}, sortedV isBid u → sortedV isBid w →
      (∀ r, lookupK u r = lookupK w r) → u = w := by
  intro u
  induction u with
  | nil =>
    intro w _ _ hl
    rcases w with _ | ⟨y, w2⟩
    · rfl
    · exfalso
      have hh := hl y.1
      rw [lookupK_nil, lookupK_cons, if_pos rfl] at hh
      cases hh
  | cons x u2 ih =>
    intro w hu hw hl
    rcases w with _ | ⟨y, w2⟩
    · exfalso
      have hh := hl x.1
      rw [lookupK_nil, lookupK_cons, if_pos rfl] at hh
      cases hh
    · obtain ⟨hxu, hu2⟩ := List.pairwise_cons.mp hu
      obtain ⟨hyw, hw2⟩ := List.pairwise_cons.mp hw
      have hkey : x.1 = y.1 := by
        by_contra hne
        have h1 : lookupK (y :: w2) x.1 = some x.2 := by
          rw [← hl x.1, lookupK_cons, if_pos rfl]
        rw [lookupK_cons, if_neg (fun hc => hne hc.symm)] at h1
        have hso1 : sklt isBid y.1 x.1 := hyw _ (lookupK_mem h1)
        have h2 : lookupK (x :: u2) y.1 = some y.2 := by
          rw [hl y.1, lookupK_cons, if_pos rfl]
        rw [lookupK_cons, if_neg hne] at h2
        have hso2 : sklt isBid x.1 y.1 := hxu _ (lookupK_mem h2)
        rw [sklt_iff_skq] at hso1 hso2
        linarith
      have hval : x.2 = y.2 := by
        have hh := hl x.1
        rw [lookupK_cons, if_pos rfl, lookupK_cons, if_pos hkey.symm] at hh
        exact Option.some_inj.mp hh
      have hxy : x = y := by
        cases x; cases y
        simp only at hkey hval
        rw [hkey, hval]
      subst hxy
      have htl : u2 = w2 := by
        refine ih hu2 hw2 (fun r => ?_)
        by_cases hr : x.1 = r
        · rw [lookupK_eq_none (fun z hz hc =>
              sklt_irrefl x.1 (show sklt isBid x.1 x.1 from
                (hc.trans hr.symm) ▸ hxu z hz)),
            lookupK_eq_none (fun z hz hc =>
              sklt_irrefl x.1 (show sklt isBid x.1 x.1 from
                (hc.trans hr.symm) ▸ hyw z hz))]
        · have hh := hl r
          rw [lookupK_cons, if_neg hr, lookupK_cons, if_neg hr] at hh
          exact hh
      rw [htl]

/-- Distinct sizes cannot share a key in a key-distinct view. -/
theorem key_unique {m : View} {p a b : Dec} (hs : sNodup m)
    (ha : (p, a) ∈ m) (hb : (p, b) ∈ m) : a = b := by
  have h1 := lookupK_eq_some_of_mem hs ha
  have h2 := lookupK_eq_some_of_mem hs hb
  rw [h1] at h2
  exact Option.some_inj.mp h2

theorem filterMap_self_sublist {α : Type} (f : α → Option α) (l : List α)
    (hf : ∀ x, f x = some x ∨ f x = none) :
    List.Sublist (l.filterMap f) l := by
  induction l with
  | nil => exact List.Sublist.refl []
  | cons x t ih =>
    rcases hf x with h | h
    · rw [List.filterMap_cons_some h]
      exact ih.cons₂ x
    · rw [List.filterMap_cons_none h]
      exact ih.cons x

theorem calcDeltas_lambda_self (oldV : View) (isBid : Bool) :
    ∀ x : Dec × Dec,
      (if vmem x.1 oldV then
          match getQty isBid oldV x.1 with
          | none => some x
          | some oq => if oq ≠ x.2 then some x else none
        else some x) = some x ∨
      (if vmem x.1 oldV then
          match getQty isBid oldV x.1 with
          | none => some x
          | some oq => if oq ≠ x.2 then some x else none
        else some x) = none := by
  intro x
  by_cases hv : vmem x.1 oldV
  · rw [if_pos hv]
    rcases getQty isBid oldV x.1 with _ | oq
    · left; rfl
    · by_cases hne : oq ≠ x.2
      · left; exact if_pos hne
      · right; exact if_neg hne
  · left; exact if_neg hv

/-- The adds-and-changes part of the delta list is a sublist of the new
view. -/
theorem calcDeltas_left_sublist (newV oldV : View) (isBid : Bool) :
    List.Sublist (newV.filterMap (fun x =>
      if vmem x.1 oldV then
        match getQty isBid oldV x.1 with
        | none => some x
        | some oq => if oq ≠ x.2 then some x else none
      else some x)) newV :=
  filterMap_self_sublist _ _ (calcDeltas_lambda_self oldV isBid)

/-- Every price string of the delta list is a price string of one of
the two views. -/
theorem calcDeltas_key_prov {newV oldV : View} {isBid : Bool} :
    ∀ y ∈ calculateDeltas newV oldV isBid,
      (∃ z ∈ newV, z.1 = y.1) ∨ (∃ z ∈ oldV, z.1 = y.1) := by
  intro y hy
  unfold calculateDeltas at hy
  rcases List.mem_append.mp hy with h2 | h2
  · left
    exact ⟨y, (calcDeltas_left_sublist newV oldV isBid).mem h2, rfl⟩
  · right
    obtain ⟨z, hzf, hzy⟩ := List.mem_map.mp h2
    exact ⟨z, (List.mem_filter.mp hzf).1, by rw [← hzy]⟩

/-- The delta list has value-distinct prices. -/
theorem calcDeltas_vNodup {newV oldV : View} (isBid : Bool)
    (hold : sortedV isBid oldV) (hnew : sortedV isBid newV)
    (hinj : ∀ x ∈ newV, ∀ y ∈ oldV, x.1.veq y.1 → x.1 = y.1) :
    vNodup (calculateDeltas newV oldV isBid) := by
  unfold calculateDeltas vNodup
  rw [List.pairwise_append]
  refine ⟨?_, ?_, ?_⟩
  · exact (sortedV_vNodup hnew).sublist (calcDeltas_left_sublist newV oldV isBid)
  · rw [List.pairwise_map]
    exact ((sortedV_vNodup hold).sublist (List.filter_sublist _)).imp
      (fun hab => hab)
  · intro a ha b hb hveq
    have ha_new : a ∈ newV := (calcDeltas_left_sublist newV oldV isBid).mem ha
    obtain ⟨z, hzf, hzb⟩ := List.mem_map.mp hb
    obtain ⟨hz_old, hz_nv⟩ := List.mem_filter.mp hzf
    have hb1 : b.1 = z.1 := by rw [← hzb]
    rw [hb1] at hveq
    have haz : a.1 = z.1 := hinj a ha_new z hz_old hveq
    have hvt : vmem z.1 newV = true :=
      vmem_iff.mpr ⟨a, ha_new, by rw [haz]; exact Dec.veq_refl _⟩
    rw [hvt] at hz_nv
    cases hz_nv

/-- Core replay correspondence: applying the computed delta of two top
views to the old view, with the dict-and-sort semantics of the
traverser, reproduces the new view exactly.  Requires both views
strictly sorted by the same polarity, a single spelling per price
value across the two views, and no zero-parsing size in the new view
(a zero entry of the new view would be read back as a removal). -/
theorem applySide_roundtrip (isBid : Bool) (oldV newV : View)
    (hold : sortedV isBid oldV) (hnew : sortedV isBid newV)
    (hinjON : ∀ x ∈ newV, ∀ y ∈ oldV, x.1.veq y.1 → x.1 = y.1)
    (hz : ∀ y ∈ newV, ¬ y.2.isZero) :
    applySide isBid oldV (calculateDeltas newV oldV isBid) = newV := by
  have hsnN : sNodup newV := sortedV_sNodup hnew
  have hsnO : sNodup oldV := sortedV_sNodup hold
  have hvnd : vNodup (calculateDeltas newV oldV isBid) :=
    calcDeltas_vNodup isBid hold hnew hinjON
  have hsnd : sNodup (calculateDeltas newV oldV isBid) := vNodup_sNodup hvnd
  have hspec := fun p s2 => calcDeltas_mem_spec newV oldV isBid hold hinjON p s2
  have hfr : ∀ r,
      (match lookupK (calculateDeltas newV oldV isBid) r with
       | some q => if q.isZero then none else some q
       | none => lookupK oldV r) = lookupK newV r := by
    intro r
    rcases hn : lookupK newV r with _ | qn
    · rcases hdl : lookupK (calculateDeltas newV oldV isBid) r with _ | qd
      · show lookupK oldV r = none
        rcases hlo : lookupK oldV r with _ | q0
        · rfl
        · exfalso
          have hmem_old : (r, q0) ∈ oldV := lookupK_mem hlo
          have habs_new : ∀ u, (r, u) ∉ newV := fun u hu =>
            lookupK_none_iff.mp hn (r, u) hu rfl
          have hrem : (r, Dec.zero) ∈ calculateDeltas newV oldV isBid :=
            (hspec r Dec.zero).mpr
              (Or.inr (Or.inr ⟨rfl, ⟨q0, hmem_old⟩, habs_new⟩))
          rw [lookupK_eq_some_of_mem hsnd hrem] at hdl
          cases hdl
      · show (if qd.isZero then none else some qd) = none
        have hmem_d : (r, qd) ∈ calculateDeltas newV oldV isBid :=
          lookupK_mem hdl
        rcases (hspec r qd).mp hmem_d with ⟨hm, -⟩ | ⟨hm, -⟩ | ⟨hqz, -, -⟩
        · exact absurd rfl (lookupK_none_iff.mp hn (r, qd) hm)
        · exact absurd rfl (lookupK_none_iff.mp hn (r, qd) hm)
        · rw [hqz, if_pos (show Dec.zero.isZero from rfl)]
    · have hmem_new : (r, qn) ∈ newV := lookupK_mem hn
      by_cases hvo : ∃ t, (r, t) ∈ oldV
      · obtain ⟨q0, hq0⟩ := hvo
        by_cases hq : q0 = qn
        · have hdl : lookupK (calculateDeltas newV oldV isBid) r = none := by
            refine lookupK_eq_none (fun y hy hc => ?_)
            have hyd : (r, y.2) ∈ calculateDeltas newV oldV isBid := by
              rw [← hc]
              simpa using hy
            rcases (hspec r y.2).mp hyd with
              ⟨-, habs⟩ | ⟨hm, t, ht, htne⟩ | ⟨-, -, habs⟩
            · exact habs q0 hq0
            · have ht0 : t = q0 := key_unique hsnO ht hq0
              have hy2 : y.2 = qn := key_unique hsnN hm hmem_new
              rw [ht0, hy2] at htne
              exact htne hq
            · exact habs qn hmem_new
          rw [hdl]
          show lookupK oldV r = some qn
          rw [lookupK_eq_some_of_mem hsnO hq0, hq]
        · have hchanged : (r, qn) ∈ calculateDeltas newV oldV isBid :=
            (hspec r qn).mpr
              (Or.inr (Or.inl ⟨hmem_new, q0, hq0, hq⟩))
          rw [lookupK_eq_some_of_mem hsnd hchanged]
          show (if qn.isZero then none else some qn) = some qn
          rw [if_neg (hz (r, qn) hmem_new)]
      · have hadded : (r, qn) ∈ calculateDeltas newV oldV isBid :=
          (hspec r qn).mpr (Or.inl ⟨hmem_new, fun t ht => hvo ⟨t, ht⟩⟩)
        rw [lookupK_eq_some_of_mem hsnd hadded]
        show (if qn.isZero then none else some qn) = some qn
        rw [if_neg (hz (r, qn) hmem_new)]
  have hinjOD : ∀ x ∈ oldV, ∀ y ∈ calculateDeltas newV oldV isBid,
      x.1.veq y.1 → x.1 = y.1 := by
    intro x hx y hy hveq
    rcases calcDeltas_key_prov y hy with ⟨z, hz2, hzy⟩ | ⟨z, hz2, hzy⟩
    · rw [← hzy] at hveq ⊢
      exact (hinjON z hz2 x hx (Dec.veq_symm hveq)).symm
    · rw [← hzy] at hveq ⊢
      by_cases heq : x = z
      · rw [heq]
      · exact absurd hveq
          ((List.Pairwise.forall vNodup_symm (sortedV_vNodup hold)) hx hz2 heq)
  have happly : sortedV isBid
      (applySide isBid oldV (calculateDeltas newV oldV isBid)) :=
    sortedV_sortV isBid _ (applyFold_vNodup (sortedV_vNodup hold) hvnd hinjOD)
  refine eq_of_sortedV_lookupK happly hnew (fun r => ?_)
  have h1 : lookupK
      (applySide isBid oldV (calculateDeltas newV oldV isBid)) r =
      lookupK ((calculateDeltas newV oldV isBid).foldl
        (fun m x => if x.2.isZero then popK m x.1 else upsertK m x.1 x.2)
        (dictOf oldV)) r :=
    lookupK_perm (sortV_perm isBid _) (applyFold_sNodup dictOf_sNodup) r
  rw [h1, lookupK_applyFold hsnd r, dictOf_eq_self hsnO]
  exact hfr r

/-! ## Book preservation through the compressor and the replay induction -/

theorem sortedV_skle {isBid : Bool} {v : View} (h : sortedV isBid v) :
    List.Sorted (skle isBid) v := by
  refine h.imp ?_
  intro a b hab
  rw [sklt_iff_skq] at hab
  intro hc
  rw [sklt_iff_skq] at hc
  linarith

/-- Sorting a sorted view is the identity. -/
theorem sortV_of_sortedV {isBid : Bool} {v : View} (h : sortedV isBid v) :
    sortV isBid v = v :=
  List.Sorted.insertionSort_eq (sortedV_skle h)

/-- Applying an empty delta list returns the (sorted, key-distinct)
view unchanged. -/
theorem applySide_empty {isBid : Bool} {v : View} (h : sortedV isBid v) :
    applySide isBid v [] = v := by
  unfold applySide
  rw [List.foldl_nil, dictOf_eq_self (sortedV_sNodup h)]
  exact sortV_of_sortedV h

theorem updateHalfbook_sortedV {isBid : Bool} {ups : View} :
    ∀ {hb : View}, sortedV isBid hb →
      sortedV isBid (updateHalfbook isBid hb ups) := by
  induction ups with
  | nil => exact fun h => h
  | cons x t ih =>
    intro hb h
    unfold updateHalfbook at ih ⊢
    rw [List.foldl_cons]
    have hstep : update isBid hb x.1 x.2 = updR isBid hb x.1 x.2 :=
      update_eq_updR isBid hb x.1 x.2
    exact ih (by rw [hstep]; exact updR_sortedV h)

theorem updateHalfbook_nonzero {isBid : Bool} {ups : View} :
    ∀ {hb : View}, (∀ y ∈ hb, ¬ y.2.isZero) →
      ∀ y ∈ updateHalfbook isBid hb ups, ¬ y.2.isZero := by
  induction ups with
  | nil => exact fun h => h
  | cons x t ih =>
    intro hb h
    unfold updateHalfbook at ih ⊢
    rw [List.foldl_cons]
    refine ih ?_
    rw [update_eq_updR]
    exact updR_nonzero h

theorem updateHalfbook_mem {isBid : Bool} {ups : View} :
    ∀ {hb : View}, ∀ y ∈ updateHalfbook isBid hb ups, y ∈ hb ∨ y ∈ ups := by
  induction ups with
  | nil => exact fun y hy => Or.inl hy
  | cons x t ih =>
    intro hb y hy
    unfold updateHalfbook at ih hy
    rw [List.foldl_cons] at hy
    rcases ih y hy with h2 | h2
    · rw [update_eq_updR] at h2
      rcases updR_mem y h2 with h3 | h3
      · right
        rw [h3, show ((x.1, x.2) : Dec × Dec) = x from rfl]
        exact List.mem_cons_self x t
      · left; exact h3
    · right; exact List.mem_cons_of_mem x h2

/-- A pointwise reading of the injective-spelling hypothesis. -/
def PricesInj (l : List Dec) : Prop :=
  l.Pairwise (fun a b => a.veq b → a = b)

instance (l : List Dec) : Decidable (PricesInj l) :=
  inferInstanceAs (Decidable (List.Pairwise _ _))

theorem PricesInj_eq {P : List Dec} (hP : PricesInj P) {a b : Dec}
    (ha : a ∈ P) (hb : b ∈ P) (hv : a.veq b) : a = b := by
  by_cases heq : a = b
  · exact heq
  · have hsym : Symmetric (fun a b : Dec => a.veq b → a = b) := by
      intro c d h hv2
      exact (h (Dec.veq_symm hv2)).symm
    exact (List.Pairwise.forall hsym hP) ha hb heq hv

/-- Per-side behaviour of the delta branch: the updated book keeps the
invariants, and the emitted side, read back by the traverser, maps the
old top slice to the new one. -/
theorem sideStep_spec (isBid : Bool) (hb ups : View) (N : Nat)
    (P : List Dec) (hP : PricesInj P)
    (hsb : sortedV isBid hb) (hnzb : ∀ y ∈ hb, ¬ y.2.isZero)
    (hkeys : ∀ y ∈ hb, y.1 ∈ P) (hupk : ∀ y ∈ ups, y.1 ∈ P) :
    sortedV isBid (sideStep isBid hb ups N).1 ∧
    (∀ y ∈ (sideStep isBid hb ups N).1, ¬ y.2.isZero) ∧
    (∀ y ∈ (sideStep isBid hb ups N).1, y.1 ∈ P) ∧
    (sideOut (sideStep isBid hb ups N).2 = none →
      (sideStep isBid hb ups N).1.take N = hb.take N) ∧
    (∀ d, sideOut (sideStep isBid hb ups N).2 = some d →
      applySide isBid (hb.take N) d = (sideStep isBid hb ups N).1.take N) := by
  by_cases he : ups.isEmpty
  · have hss : sideStep isBid hb ups N = (hb, none) := by
      unfold sideStep; rw [if_pos he]
    rw [hss]
    exact ⟨hsb, hnzb, hkeys, fun _ => rfl, fun d hd => Option.noConfusion hd⟩
  · have hss : sideStep isBid hb ups N =
        (updateHalfbook isBid hb ups,
         some (calculateDeltas ((updateHalfbook isBid hb ups).take N)
           (hb.take N) isBid)) := by
      unfold sideStep; rw [if_neg he]
    rw [hss]
    have hsn : sortedV isBid (updateHalfbook isBid hb ups) :=
      updateHalfbook_sortedV hsb
    have hnz2 : ∀ y ∈ updateHalfbook isBid hb ups, ¬ y.2.isZero :=
      updateHalfbook_nonzero hnzb
    have hkey2 : ∀ y ∈ updateHalfbook isBid hb ups, y.1 ∈ P := fun y hy =>
      (updateHalfbook_mem y hy).elim (fun h2 => hkeys y h2)
        (fun h2 => hupk y h2)
    have holdT : sortedV isBid (hb.take N) := sortedV_take hsb N
    have hnewT : sortedV isBid ((updateHalfbook isBid hb ups).take N) :=
      sortedV_take hsn N
    have hinjT : ∀ x ∈ (updateHalfbook isBid hb ups).take N,
        ∀ y ∈ hb.take N, x.1.veq y.1 → x.1 = y.1 := by
      intro x hx y hy hv
      exact PricesInj_eq hP (hkey2 x (List.take_subset _ _ hx))
        (hkeys y (List.take_subset _ _ hy)) hv
    have hzT : ∀ y ∈ (updateHalfbook isBid hb ups).take N, ¬ y.2.isZero :=
      fun y hy => hnz2 y (List.take_subset _ _ hy)
    have hrt := applySide_roundtrip isBid (hb.take N)
      ((updateHalfbook isBid hb ups).take N) holdT hnewT hinjT hzT
    refine ⟨hsn, hnz2, hkey2, ?_, ?_⟩
    · intro hnone
      rcases hd : calculateDeltas ((updateHalfbook isBid hb ups).take N)
          (hb.take N) isBid with _ | ⟨x, d2⟩
      · rw [hd, applySide_empty holdT] at hrt
        exact hrt.symm
      · rw [hd] at hnone
        cases hnone
    · intro d hd2
      rcases hdel : calculateDeltas ((updateHalfbook isBid hb ups).take N)
          (hb.take N) isBid with _ | ⟨x, d2⟩
      · rw [hdel] at hd2
        cases hd2
      · rw [hdel] at hd2 hrt
        have hde : x :: d2 = d := Option.some_inj.mp hd2
        rw [← hde]
        exact hrt

/-- Replay of one optional record: messages that emitted nothing leave
the traverser untouched. -/
def replayOpt (st : OBState) : Option Rec → OBState
  | none => st
  | some r => procUpdate st r

def replayList (st : OBState) (rs : List (Option Rec)) : OBState :=
  rs.foldl replayOpt st

/-- The traverser replay of the emitted transcript in file order:
replaying the records that were actually written equals folding the
optional records. -/
theorem replay_filterMap (rs : List (Option Rec)) :
    ∀ st : OBState, (rs.filterMap id).foldl procUpdate st = replayList st rs := by
  induction rs with
  | nil => intro st; rfl
  | cons o rs2 ih =>
    intro st
    rcases o with _ | r
    · rw [List.filterMap_cons_none (show id (none : Option Rec) = none from rfl)]
      exact ih st
    · rw [List.filterMap_cons_some (show id (some r) = some r from rfl),
        List.foldl_cons]
      exact ih (procUpdate st r)

/-- OrderbookTraverser._load_initial_snapshot applied to the snapshot
record (whose side keys the compressor always writes). -/
def initStateOfSnap (r : Rec) : OBState :=
  { bids := r.b.getD [], asks := r.a.getD [],
    timestamp := r.t, sequence := r.s }

/-- The compressor invariant: both books sorted by their polarity and
free of zero-parsing sizes. -/
def InvC (cs : CState) : Prop :=
  sortedV true cs.bids ∧ sortedV false cs.asks ∧
  (∀ y ∈ cs.bids, ¬ y.2.isZero) ∧ (∀ y ∈ cs.asks, ¬ y.2.isZero)

/-- The replay relation: the traverser state holds exactly the top
slices of the compressor books. -/
def relTS (ts : OBState) (cs : CState) : Prop :=
  ts.bids = cs.bids.take cs.maxOutputDepth ∧
  ts.asks = cs.asks.take cs.maxOutputDepth

theorem step_preserves {cs cs2 : CState} {m : Msg} {orec : Option Rec}
    {P : List Dec} (hP : PricesInj P)
    (hfirst : cs.firstMessage = false)
    (hInv : InvC cs)
    (hkB : ∀ y ∈ cs.bids, y.1 ∈ P) (hkA : ∀ y ∈ cs.asks, y.1 ∈ P)
    (hmB : ∀ y ∈ m.data.b.getD [], y.1 ∈ P)
    (hmA : ∀ y ∈ m.data.a.getD [], y.1 ∈ P)
    {ts : OBState} (hrel : relTS ts cs)
    (hok : processMessage cs m = .ok (cs2, orec)) :
    InvC cs2 ∧ (∀ y ∈ cs2.bids, y.1 ∈ P) ∧ (∀ y ∈ cs2.asks, y.1 ∈ P) ∧
    relTS (replayOpt ts orec) cs2 ∧ cs2.firstMessage = false ∧
    cs2.maxOutputDepth = cs.maxOutputDepth := by
  rcases m with ⟨ty, t, ⟨ob, oa, sq⟩⟩
  rcases ob with _ | bl
  · rw [show processMessage cs ⟨ty, t, ⟨none, oa, sq⟩⟩ =
        .error "KeyError: b" from by
      simp only [processMessage, hfirst, Bool.false_eq_true, if_false]] at hok
    cases hok
  rcases oa with _ | al
  · rw [show processMessage cs ⟨ty, t, ⟨some bl, none, sq⟩⟩ =
        .error "KeyError: a" from by
      simp only [processMessage, hfirst, Bool.false_eq_true, if_false]] at hok
    cases hok
  rw [processMessage_delta cs hfirst ty t sq bl al] at hok
  have hinj2 := Except.ok.inj hok
  have hcs2 : cs2 = { cs with
      bids := (sideStep true cs.bids bl cs.maxOutputDepth).1,
      asks := (sideStep false cs.asks al cs.maxOutputDepth).1 } :=
    (congrArg Prod.fst hinj2).symm
  have horec : orec =
      (if (sideOut (sideStep true cs.bids bl cs.maxOutputDepth).2).isSome ∨
          (sideOut (sideStep false cs.asks al cs.maxOutputDepth).2).isSome
       then
         some
           { t := t, s := sq,
             b := sideOut (sideStep true cs.bids bl cs.maxOutputDepth).2,
             a := sideOut (sideStep false cs.asks al cs.maxOutputDepth).2 }
       else none) :=
    (congrArg Prod.snd hinj2).symm
  subst hcs2
  subst horec
  obtain ⟨hIb, hIa, hzb, hza⟩ := hInv
  obtain ⟨hsb2, hnzb2, hkb2, hbnone, hbsome⟩ :=
    sideStep_spec true cs.bids bl cs.maxOutputDepth P hP hIb hzb hkB hmB
  obtain ⟨hsa2, hnza2, hka2, hanone, hasome⟩ :=
    sideStep_spec false cs.asks al cs.maxOutputDepth P hP hIa hza hkA hmA
  obtain ⟨hrb, hra⟩ := hrel
  refine ⟨⟨hsb2, hsa2, hnzb2, hnza2⟩, hkb2, hka2, ?_, hfirst, rfl⟩
  by_cases hcond :
      (sideOut (sideStep true cs.bids bl cs.maxOutputDepth).2).isSome = true ∨
      (sideOut (sideStep false cs.asks al cs.maxOutputDepth).2).isSome = true
  · rw [if_pos hcond]
    constructor
    · show (procUpdate ts _).bids = _
      unfold procUpdate
      rcases hrbv : sideOut (sideStep true cs.bids bl cs.maxOutputDepth).2
        with _ | d
      · simp only [hrbv]
        rw [hrb, (hbnone hrbv).symm]
      · simp only [hrbv]
        rw [hrb, hbsome d hrbv]
    · show (procUpdate ts _).asks = _
      unfold procUpdate
      rcases hrav : sideOut (sideStep false cs.asks al cs.maxOutputDepth).2
        with _ | d
      · simp only [hrav]
        rw [hra, (hanone hrav).symm]
      · simp only [hrav]
        rw [hra, hasome d hrav]
  · rw [if_neg hcond]
    push_neg at hcond
    obtain ⟨hc1, hc2⟩ := hcond
    have hrb0 : sideOut (sideStep true cs.bids bl cs.maxOutputDepth).2 = none :=
      Option.not_isSome_iff_eq_none.mp (by simpa using hc1)
    have hra0 : sideOut (sideStep false cs.asks al cs.maxOutputDepth).2 = none :=
      Option.not_isSome_iff_eq_none.mp (by simpa using hc2)
    exact ⟨by rw [show replayOpt ts none = ts from rfl, hrb, (hbnone hrb0).symm],
      by rw [show replayOpt ts none = ts from rfl, hra, (hanone hra0).symm]⟩

/-- process_orderbook_file, restricted to the compression core: feed
every message in order, collecting for each the optional record that
would be written to the transcript (none when process_message returned
an empty dict). -/
def runC : CState → List Msg → Except String (CState × List (Option Rec))
  | st, [] => .ok (st, [])
  | st, m :: ms =>
    match processMessage st m with
    | .error e => .error e
    | .ok (st2, orec) =>
      match runC st2 ms with
      | .error e => .error e
      | .ok (stf, rs) => .ok (stf, orec :: rs)

/-- The price spellings occurring in one message. -/
def msgPrices (m : Msg) : List Dec :=
  ((m.data.b.getD []).map Prod.fst) ++ ((m.data.a.getD []).map Prod.fst)

/-- The price spellings occurring in a message sequence. -/
def allPrices (ms : List Msg) : List Dec := (ms.map msgPrices).join

/-- Hypotheses on the snapshot message: each side has value-distinct
prices and no zero-parsing size. -/
def snapGood (m : Msg) : Prop :=
  vNodup (m.data.b.getD []) ∧ vNodup (m.data.a.getD []) ∧
  (∀ y ∈ m.data.b.getD [], ¬ y.2.isZero) ∧
  (∀ y ∈ m.data.a.getD [], ¬ y.2.isZero)

instance (m : Msg) : Decidable (snapGood m) := by
  unfold snapGood
  infer_instance

theorem mem_allPrices_of_msg {m : Msg} {ms : List Msg} (hm : m ∈ ms)
    {p : Dec} (hp : p ∈ msgPrices m) : p ∈ allPrices ms := by
  unfold allPrices
  rw [List.mem_join]
  exact ⟨msgPrices m, List.mem_map.mpr ⟨m, hm, rfl⟩, hp⟩

theorem runC_good {P : List Dec} (hP : PricesInj P) :
    ∀ (ms : List Msg) (cs : CState) (ts : OBState) (stf : CState)
      (rs : List (Option Rec)),
      cs.firstMessage = false → InvC cs →
      (∀ y ∈ cs.bids, y.1 ∈ P) → (∀ y ∈ cs.asks, y.1 ∈ P) →
      (∀ m ∈ ms, ∀ p ∈ msgPrices m, p ∈ P) →
      relTS ts cs →
      runC cs ms = .ok (stf, rs) →
      relTS (replayList ts rs) stf ∧ stf.maxOutputDepth = cs.maxOutputDepth := by
  intro ms
  induction ms with
  | nil =>
    intro cs ts stf rs _ _ _ _ _ hrel hok
    have hinj2 := Except.ok.inj hok
    have hcs : stf = cs := (congrArg Prod.fst hinj2).symm
    have hrs : rs = [] := (congrArg Prod.snd hinj2).symm
    rw [hcs, hrs]
    exact ⟨hrel, rfl⟩
  | cons m ms2 ih =>
    intro cs ts stf rs hfirst hInv hkB hkA hmp hrel hok
    unfold runC at hok
    rcases hpm : processMessage cs m with e | ⟨cs2, orec⟩
    · simp [hpm] at hok
    · rw [hpm] at hok
      dsimp only at hok
      rcases hrun : runC cs2 ms2 with e | ⟨stf2, rs2⟩
      · simp [hrun] at hok
      · rw [hrun] at hok
        dsimp only at hok
        have hinj2 := Except.ok.inj hok
        have hstf : stf = stf2 := (congrArg Prod.fst hinj2).symm
        have hrs : rs = orec :: rs2 := (congrArg Prod.snd hinj2).symm
        have hmbP : ∀ y ∈ m.data.b.getD [], y.1 ∈ P := by
          intro y hy
          refine hmp m (List.mem_cons_self m ms2) y.1 ?_
          unfold msgPrices
          exact List.mem_append.mpr (Or.inl (List.mem_map.mpr ⟨y, hy, rfl⟩))
        have hmaP : ∀ y ∈ m.data.a.getD [], y.1 ∈ P := by
          intro y hy
          refine hmp m (List.mem_cons_self m ms2) y.1 ?_
          unfold msgPrices
          exact List.mem_append.mpr (Or.inr (List.mem_map.mpr ⟨y, hy, rfl⟩))
        obtain ⟨hInv2, hkB2, hkA2, hrel2, hfirst2, hN2⟩ :=
          step_preserves hP hfirst hInv hkB hkA hmbP hmaP hrel hpm
        obtain ⟨hrelf, hNf⟩ := ih cs2 (replayOpt ts orec) stf2 rs2 hfirst2
          hInv2 hkB2 hkA2
          (fun m2 hm2 => hmp m2 (List.mem_cons_of_mem m hm2)) hrel2 hrun
        rw [hstf, hrs]
        exact ⟨hrelf, by rw [hNf, hN2]⟩

/-- C1 amended: the compression round trip.  For a message sequence the
compressor accepts (first message of type snapshot, both side keys on
every message), in which every price value occurs under a single
spelling, and whose snapshot sides have value-distinct prices and no
zero-parsing sizes, replaying the emitted transcript in file order -
initializing the traverser state from the snapshot record and applying
each subsequent record with _process_update - reproduces exactly the
top slices of the compressor books after the last message.  Every
record boundary is covered by instantiating the theorem at the
corresponding prefix of the input (a prefix of an accepted run is an
accepted run ending at that boundary). -/
theorem C1_roundtrip (m0 : Msg) (ms : List Msg) (N : Nat)
    (stf : CState) (rs : List (Option Rec))
    (hinj : PricesInj (allPrices (m0 :: ms)))
    (hsnap : snapGood m0)
    (hrun : runC (initC N) (m0 :: ms) = .ok (stf, rs)) :
    ∃ snapRec rs2, rs = some snapRec :: rs2 ∧
      ((rs2.filterMap id).foldl procUpdate (initStateOfSnap snapRec)).bids =
        stf.bids.take N ∧
      ((rs2.filterMap id).foldl procUpdate (initStateOfSnap snapRec)).asks =
        stf.asks.take N := by
  unfold runC at hrun
  rcases hm0 : processMessage (initC N) m0 with e | ⟨st1, orec0⟩
  · simp [hm0] at hrun
  · rw [hm0] at hrun
    dsimp only at hrun
    rcases hrun2 : runC st1 ms with e | ⟨stf2, rs2⟩
    · simp [hrun2] at hrun
    · rw [hrun2] at hrun
      dsimp only at hrun
      have hinj2 := Except.ok.inj hrun
      have hstf : stf = stf2 := (congrArg Prod.fst hinj2).symm
      have hrs : rs = orec0 :: rs2 := (congrArg Prod.snd hinj2).symm
      rcases m0 with ⟨ty0, t0, ⟨ob0, oa0, sq0⟩⟩
      unfold processMessage at hm0
      rw [if_pos (show (initC N).firstMessage = true from rfl)] at hm0
      by_cases hty : ty0 ≠ "snapshot"
      · rw [if_pos hty] at hm0
        cases hm0
      · rw [if_neg hty] at hm0
        rcases ob0 with _ | bl0
        · cases hm0
        rcases oa0 with _ | al0
        · cases hm0
        dsimp only at hm0
        have hinj0 := Except.ok.inj hm0
        have hst1 : st1 =
            { bids := hbSet true bl0, asks := hbSet false al0,
              maxOutputDepth := (initC N).maxOutputDepth,
              firstMessage := false } :=
          (congrArg Prod.fst hinj0).symm
        have horec0 : orec0 =
            some { t := t0, s := sq0,
                   b := some ((hbSet true bl0).take (initC N).maxOutputDepth),
                   a := some ((hbSet false al0).take (initC N).maxOutputDepth) } :=
          (congrArg Prod.snd hinj0).symm
        obtain ⟨hvb, hva, hzb0, hza0⟩ := hsnap
        have hInv1 : InvC st1 := by
          rw [hst1]
          refine ⟨sortedV_sortV true bl0 hvb, sortedV_sortV false al0 hva,
            ?_, ?_⟩
          · intro y hy
            exact hzb0 y (hbSet_mem.mp hy)
          · intro y hy
            exact hza0 y (hbSet_mem.mp hy)
        have hkB1 : ∀ y ∈ st1.bids, y.1 ∈ allPrices
            (⟨ty0, t0, ⟨some bl0, some al0, sq0⟩⟩ :: ms) := by
          intro y hy
          rw [hst1] at hy
          refine mem_allPrices_of_msg (List.mem_cons_self _ ms) ?_
          unfold msgPrices
          exact List.mem_append.mpr
            (Or.inl (List.mem_map.mpr ⟨y, hbSet_mem.mp hy, rfl⟩))
        have hkA1 : ∀ y ∈ st1.asks, y.1 ∈ allPrices
            (⟨ty0, t0, ⟨some bl0, some al0, sq0⟩⟩ :: ms) := by
          intro y hy
          rw [hst1] at hy
          refine mem_allPrices_of_msg (List.mem_cons_self _ ms) ?_
          unfold msgPrices
          exact List.mem_append.mpr
            (Or.inr (List.mem_map.mpr ⟨y, hbSet_mem.mp hy, rfl⟩))
        have hrel1 : relTS (initStateOfSnap
            { t := t0, s := sq0,
              b := some ((hbSet true bl0).take (initC N).maxOutputDepth),
              a := some ((hbSet false al0).take (initC N).maxOutputDepth) })
            st1 := by
          rw [hst1]
          exact ⟨rfl, rfl⟩
        obtain ⟨hrelf, hNf⟩ := runC_good hinj ms st1 _ stf2 rs2
          (by rw [hst1]) hInv1 hkB1 hkA1
          (fun m2 hm2 p hp =>
            mem_allPrices_of_msg (List.mem_cons_of_mem _ hm2) hp)
          hrel1 hrun2
        refine ⟨{ t := t0, s := sq0,
                  b := some ((hbSet true bl0).take (initC N).maxOutputDepth),
                  a := some ((hbSet false al0).take (initC N).maxOutputDepth) },
          rs2, by rw [hrs, horec0], ?_, ?_⟩
        · rw [replay_filterMap, hstf]
          rw [hrelf.1, hNf, hst1]
          rfl
        · rw [replay_filterMap, hstf]
          rw [hrelf.2, hNf, hst1]
          rfl

/-- Extract the payload of a successful run (default for the error case). -/
def okOf {e a : Type} (d : a) : Except e a → a
  | .ok x => x
  | .error _ => d

/-- The traverser reconstruction of a transcript: initialize from the
leading snapshot record and fold the remaining written records through
_process_update. -/
def travOf (p : CState × List (Option Rec)) : OBState :=
  match p.2 with
  | some r :: rs2 => (rs2.filterMap id).foldl procUpdate (initStateOfSnap r)
  | _ => { bids := [], asks := [], timestamp := 0, sequence := 0 }

/-- Run A: the snapshot spells the price 100 as the string 100 and the
delta respells it as 100.0.  The compressor books are keyed by decimal
value, the traverser dict by the price string. -/
def c1msgsA : List Msg :=
  [{ type := "snapshot", ts := 1,
     data := { b := some [(⟨100, 0⟩, ⟨10, 0⟩)], a := some [], seq := 1 } },
   { type := "delta", ts := 2,
     data := { b := some [(⟨1000, 1⟩, ⟨20, 0⟩)], a := some [], seq := 2 } }]

/-- Run B: the snapshot carries a zero-size level that the output depth
truncates away, so the traverser never learns about price 99. -/
def c1msgsB : List Msg :=
  [{ type := "snapshot", ts := 1,
     data := { b := some [(⟨100, 0⟩, ⟨10, 0⟩), (⟨99, 0⟩, ⟨0, 0⟩)],
               a := some [], seq := 1 } },
   { type := "delta", ts := 2,
     data := { b := some [(⟨100, 0⟩, ⟨0, 0⟩)], a := some [], seq := 2 } }]

/-- Run C: the snapshot repeats the price string 100, which the halfbook
keeps twice but the traverser dict collapses to one key. -/
def c1msgsC : List Msg :=
  [{ type := "snapshot", ts := 1,
     data := { b := some [(⟨100, 0⟩, ⟨10, 0⟩), (⟨100, 0⟩, ⟨7, 0⟩)],
               a := some [], seq := 1 } },
   { type := "delta", ts := 2,
     data := { b := some [(⟨99, 0⟩, ⟨5, 0⟩)], a := some [], seq := 2 } }]

def c1runA : CState × List (Option Rec) :=
  okOf (initC 20, []) (runC (initC 20) c1msgsA)

def c1runB : CState × List (Option Rec) :=
  okOf (initC 1, []) (runC (initC 1) c1msgsB)

def c1runC : CState × List (Option Rec) :=
  okOf (initC 20, []) (runC (initC 20) c1msgsC)

/-- C1 fails as stated: three accepted two-message sequences (a price
respelled between snapshot and delta; a zero-size snapshot level below
the output depth; a duplicated snapshot price string) on which the
traverser reconstruction after the last record differs from the top-N
slice of the compressor bid book. -/
theorem C1_counterexample :
    (isErr (runC (initC 20) c1msgsA) = false ∧
      (travOf c1runA).bids ≠ c1runA.1.bids.take 20) ∧
    (isErr (runC (initC 1) c1msgsB) = false ∧
      (travOf c1runB).bids ≠ c1runB.1.bids.take 1) ∧
    (isErr (runC (initC 20) c1msgsC) = false ∧
      (travOf c1runC).bids ≠ c1runC.1.bids.take 20) := by
  decide

/-- A well-behaved two-message run for the round-trip witness. -/
def c1wmsgs : List Msg :=
  [{ type := "snapshot", ts := 1,
     data := { b := some [(⟨100, 0⟩, ⟨10, 0⟩)],
               a := some [(⟨101, 0⟩, ⟨5, 0⟩)], seq := 1 } },
   { type := "delta", ts := 2,
     data := { b := some [(⟨99, 0⟩, ⟨4, 0⟩)], a := some [], seq := 2 } }]

def c1wRun : CState × List (Option Rec) :=
  okOf (initC 2, []) (runC (initC 2) c1wmsgs)

theorem C1_roundtrip_witness :
    ∃ snapRec rs2, c1wRun.2 = some snapRec :: rs2 ∧
      ((rs2.filterMap id).foldl procUpdate (initStateOfSnap snapRec)).bids =
        c1wRun.1.bids.take 2 ∧
      ((rs2.filterMap id).foldl procUpdate (initStateOfSnap snapRec)).asks =
        c1wRun.1.asks.take 2 :=
  C1_roundtrip (c1wmsgs.get ⟨0, by decide⟩) [c1wmsgs.get ⟨1, by decide⟩] 2
    c1wRun.1 c1wRun.2 (by decide) (by decide) (by rfl)

/-! ## C3: OrderbookTraverser.skip -/

/-- The traverser runtime state: the reconstructed book, the file
position (an index into the list of delta records that follow the
snapshot line), the logical timestamp, the checkpoint cache and the
timestamp of the last checkpoint written. -/
structure TState where
  st : OBState
  pos : Nat
  curTs : Int
  cache : List (Int × (OBState × Nat))
  lastCachedTs : Int
deriving DecidableEq, Repr

/-- _add_to_cache: checkpoint the current book under its timestamp
(FPCache.add keeps an existing key) and remember that timestamp. -/
def addToCache (t : TState) : TState :=
  { t with cache := fpAdd t.cache t.st.timestamp (t.st, t.pos),
           lastCachedTs := t.st.timestamp }

/-- _add_to_cache_if_needed: checkpoint when the last one is more than
cache_frequency_seconds (in milliseconds) old. -/
def addIfNeeded (freq : Int) (t : TState) : TState :=
  if t.st.timestamp - t.lastCachedTs > freq * 1000 then addToCache t else t

/-- _read_from_current over the remaining records: stop at end of file,
or when the hook fires on the record just read, before applying it;
otherwise apply the record, advance the position and maybe
checkpoint. -/
def readFrom (freq : Int) (hook : Rec → Bool) : List Rec → TState → TState
  | [], t => t
  | r :: rs, t =>
    if hook r then t
    else readFrom freq hook rs
      (addIfNeeded freq { t with st := procUpdate t.st r, pos := t.pos + 1 })

/-- _read_from_current from the stored position. -/
def readLoop (deltas : List Rec) (freq : Int) (hook : Rec → Bool)
    (t : TState) : TState :=
  readFrom freq hook (deltas.drop t.pos) t

/-- _load_initial_snapshot: state from the snapshot record, logical
timestamp from its timestamp, position at the first delta, and an
initial checkpoint. -/
def loadInitial (snap : Rec) : TState :=
  addToCache { st := initStateOfSnap snap, pos := 0,
               curTs := (initStateOfSnap snap).timestamp,
               cache := [], lastCachedTs := (initStateOfSnap snap).timestamp }

/-- skip(seconds), translated from the source: the target is
current_timestamp + seconds * 1000 with no clamping; the cache is
queried with the target (fpGet, the smallest-larger lookup); a hit
restores the stored state and position by reference; when the restored
timestamp equals the target the call returns at once, leaving
current_timestamp untouched; otherwise records are read until one with
a timestamp above the target appears (that one is not applied) and
only then is current_timestamp set to the target. -/
def skipT (deltas : List Rec) (freq : Int) (seconds : Int)
    (t : TState) : TState :=
  let target := t.curTs + seconds * 1000
  match fpGet t.cache target with
  | some (st0, pos0) =>
    if st0.timestamp = target then { t with st := st0, pos := pos0 }
    else
      let t3 := readLoop deltas freq (fun r => decide (r.t > target))
        { t with st := st0, pos := pos0 }
      { t3 with curTs := target }
  | none =>
    let t3 := readLoop deltas freq (fun r => decide (r.t > target)) t
    { t3 with curTs := target }

def c3snap : Rec :=
  { t := 1000, s := 1, b := some [(⟨100, 0⟩, ⟨10, 0⟩)], a := some [] }

def c3deltas : List Rec :=
  [{ t := 2000, s := 2, b := some [(⟨99, 0⟩, ⟨5, 0⟩)], a := none }]

def c3t0 : TState := loadInitial c3snap

/-- C3 fails as stated: with the initial snapshot at timestamp 1000
checkpointed and one delta at 2000, skip(-5) computes the unclamped
target 1000 - 5000 = -4000 (the claim demands
max(initial_timestamp, ...) = 1000); the cache hit restores the
checkpoint whose timestamp 1000 exceeds that target (the claim demands
a restored timestamp at most the target); and the final
current_timestamp is -4000 where the claimed clamped early return
would give 1000. -/
theorem C3_counterexample :
    (skipT c3deltas 10 (-5) c3t0).curTs = -4000 ∧
    (skipT c3deltas 10 (-5) c3t0).st.timestamp = 1000 ∧
    max c3t0.curTs (c3t0.curTs + (-5) * 1000) = 1000 ∧
    fpGet c3t0.cache (c3t0.curTs + (-5) * 1000) =
      some (c3t0.st, c3t0.pos) := by
  decide

theorem addIfNeeded_st (freq : Int) (t : TState) :
    (addIfNeeded freq t).st = t.st := by
  unfold addIfNeeded addToCache
  split <;> rfl

theorem readFrom_st (freq target : Int) (rs : List Rec) :
    ∀ t : TState,
      (readFrom freq (fun r => decide (r.t > target)) rs t).st =
        (rs.takeWhile (fun r => decide (r.t ≤ target))).foldl
          procUpdate t.st := by
  induction rs with
  | nil => intro t; rfl
  | cons r rs2 ih =>
    intro t
    by_cases h : r.t > target
    · rw [readFrom, if_pos (by simpa using h)]
      rw [List.takeWhile_cons_of_neg (by simpa using h)]
      rfl
    · rw [readFrom, if_neg (by simpa using h)]
      rw [List.takeWhile_cons_of_pos (by simpa using not_lt.mp h)]
      rw [ih, addIfNeeded_st, List.foldl_cons]

/-- C3 amended: skip with a cache hit at the unclamped target
current_timestamp + seconds * 1000.  When the restored checkpoint
timestamp equals the target, skip only restores the state and the
position and returns, leaving current_timestamp at its old value.
Otherwise every remaining record with timestamp at most the target is
applied from the restored position, the first record above the target
is not applied, and current_timestamp ends at the target. -/
theorem C3_skip (deltas : List Rec) (freq seconds : Int) (t : TState)
    (st0 : OBState) (pos0 : Nat)
    (hget : fpGet t.cache (t.curTs + seconds * 1000) = some (st0, pos0)) :
    (st0.timestamp = t.curTs + seconds * 1000 →
      skipT deltas freq seconds t = { t with st := st0, pos := pos0 }) ∧
    (st0.timestamp ≠ t.curTs + seconds * 1000 →
      (skipT deltas freq seconds t).st =
        ((deltas.drop pos0).takeWhile
          (fun r => decide (r.t ≤ t.curTs + seconds * 1000))).foldl
          procUpdate st0 ∧
      (skipT deltas freq seconds t).curTs = t.curTs + seconds * 1000) := by
  simp only [skipT]
  rw [hget]
  dsimp only
  constructor
  · intro heq
    rw [if_pos heq]
  · intro hne
    rw [if_neg hne]
    refine ⟨?_, rfl⟩
    show (readLoop deltas freq _ { t with st := st0, pos := pos0 }).st = _
    unfold readLoop
    rw [readFrom_st]

theorem C3_skip_witness :
    (c3t0.st.timestamp = c3t0.curTs + 5 * 1000 →
      skipT c3deltas 10 5 c3t0 = { c3t0 with st := c3t0.st, pos := 0 }) ∧
    (c3t0.st.timestamp ≠ c3t0.curTs + 5 * 1000 →
      (skipT c3deltas 10 5 c3t0).st =
        ((c3deltas.drop 0).takeWhile
          (fun r => decide (r.t ≤ c3t0.curTs + 5 * 1000))).foldl
          procUpdate c3t0.st ∧
      (skipT c3deltas 10 5 c3t0).curTs = c3t0.curTs + 5 * 1000) :=
  C3_skip c3deltas 10 5 c3t0 c3t0.st 0 (by decide)
